import Mathlib

/-!
# Bootstrap OAuth clients: create-or-merge reconciliation

A shallow embedding of `pkg/operator2/oauthclients.go`:

* `existingCopy` is the field-by-field merge computed inside the closure of
  `ensureOAuthClient` (source lines 57-69);
* `ensureOAuthClient` is the create / get / merge / update protocol, written with
  explicit state passing over an `OAuthClientInterface`;
* `randomBits`, `randomBitsString`, `random256BitsString` are the entropy helpers.

Types and helpers that the Go file imports from other packages are modelled in the
first section; each of them says which package it stands for.
-/

set_option autoImplicit false

namespace Operator2

/-! ## Imported types -/

/-- A Go byte. -/
abbrev Byte := Fin 256

/-- A Go string is a sequence of bytes, and the Go builtin `len` of a string is the
number of its bytes, which is `List.length` here. -/
abbrev GoString := List Byte

/-- Modelled from the spec: the type `oauthv1.ClusterRoleScopeRestriction` of
`github.com/openshift/api/oauth/v1`, whose declaration is not part of the file; the
reconciler copies it verbatim. -/
structure ClusterRoleScopeRestriction where
  RoleNames : List GoString
  Namespaces : List GoString
  AllowEscalation : Bool
deriving DecidableEq

/-- Modelled from the spec: the type `oauthv1.ScopeRestriction` of
`github.com/openshift/api/oauth/v1` (a scope-restriction descriptor, opaque to the
reconciler). -/
structure ScopeRestriction where
  ExactValues : List GoString
  ClusterRole : Option ClusterRoleScopeRestriction
deriving DecidableEq

/-- Modelled from the spec: the type `oauthv1.OAuthClient` of
`github.com/openshift/api/oauth/v1`, whose declaration is not part of the file.

The embedded `metav1.ObjectMeta` is flattened: `Name` is the identifier of the record,
`ResourceVersion` is the opaque version token of optimistic concurrency (`0` stands for
the unset token of a freshly built record) and `UID` stands for the metadata that only
the store assigns.  `Secret`, `RespondWithChallenges`, `RedirectURIs`, `GrantMethod`
and `ScopeRestrictions` are the five fields the reconciler writes; `AdditionalSecrets`,
`AccessTokenMaxAgeSeconds` and `AccessTokenInactivityTimeoutSeconds` are the remaining
fields of the Go struct, which the reconciler never mentions.

Go slices are lists: a nil slice and an empty slice are the same value here, which is
also how `equality.Semantic.DeepEqual` compares them. -/
structure OAuthClient where
  Name : GoString
  ResourceVersion : Nat
  UID : GoString
  Secret : GoString
  AdditionalSecrets : List GoString
  RespondWithChallenges : Bool
  RedirectURIs : List GoString
  GrantMethod : GoString
  ScopeRestrictions : List ScopeRestriction
  AccessTokenMaxAgeSeconds : Option Int
  AccessTokenInactivityTimeoutSeconds : Option Int
deriving DecidableEq

/-! ## The merge of `ensureOAuthClient` (source lines 57-69) -/

/-- The record `existingCopy` that the closure of `ensureOAuthClient` holds when it
reaches the comparison of line 71, as a function of the record `existing` returned by
`Get` and of the desired record `client`. -/
def existingCopy (existing client : OAuthClient) : OAuthClient :=
  -- existingCopy := existing.DeepCopy()
  let c0 := existing
  -- if len(client.Secret) == 0 { existingCopy.Secret = "" }
  let c1 := if client.Secret.length = 0 then { c0 with Secret := [] } else c0
  -- if len(existingCopy.Secret) < len(client.Secret) { existingCopy.Secret = client.Secret }
  let c2 := if c1.Secret.length < client.Secret.length then { c1 with Secret := client.Secret } else c1
  { c2 with
    RespondWithChallenges := client.RespondWithChallenges
    RedirectURIs := client.RedirectURIs
    GrantMethod := client.GrantMethod
    ScopeRestrictions := client.ScopeRestrictions }

/-- Modelled from the spec: `equality.Semantic.DeepEqual(existing, existingCopy)` of
`k8s.io/apimachinery/pkg/api/equality` on two `OAuthClient` values: equality of all
fields, the version token included. -/
def semanticDeepEqual (a b : OAuthClient) : Bool := decide (a = b)

/-! ## Errors, the client interface and the retry helper -/

deriving instance DecidableEq for Except

/-- Modelled from the spec: `metav1.StatusReason` of `k8s.io/apimachinery`, the reason a
store call was refused; every reason the reconciler does not tell apart from the rest is
`Other` with a code. -/
inductive StatusReason where
  | NotFound
  | AlreadyExists
  | Conflict
  | Other (code : Nat)
deriving DecidableEq

/-- Modelled from the spec: a non-nil Go `error` value returned by a store call; the Go
value `nil` is `none` of `Option GoError`. -/
structure GoError where
  Reason : StatusReason
  Message : GoString
deriving DecidableEq

/-- Modelled from the spec: `apierrors.IsAlreadyExists` of
`k8s.io/apimachinery/pkg/api/errors`, the test for the already-exists refusal. -/
def IsAlreadyExists (err : GoError) : Bool := decide (err.Reason = StatusReason.AlreadyExists)

/-- Modelled from the spec: `apierrors.IsConflict` of
`k8s.io/apimachinery/pkg/api/errors`, the test for the version-conflict refusal. -/
def IsConflict (err : GoError) : Bool := decide (err.Reason = StatusReason.Conflict)

/-- Modelled from the spec: the capability consumed by `ensureOAuthClient`
(`oauthclient.OAuthClientInterface`), restricted to the three calls the file makes.
The store is anything with a state of type `σ`; a call returns the record or an error
and the next state.  Whatever other writers do to the store between two calls of the
reconciler is part of these transitions, so a value of this type is one possible
environment of a run. -/
structure OAuthClientInterface (σ : Type) where
  Create : OAuthClient → σ → Except GoError OAuthClient × σ
  Get : GoString → σ → Except GoError OAuthClient × σ
  Update : OAuthClient → σ → Except GoError OAuthClient × σ

/-- Modelled from the spec: `wait.Backoff` of `k8s.io/apimachinery`; only `Steps`, the
number of attempts, is kept (the other fields only fix how long the helper sleeps
between two attempts). -/
structure Backoff where
  Steps : Nat
deriving DecidableEq

/-- Modelled from the spec: `retry.DefaultRetry` of `k8s.io/client-go/util/retry`,
five attempts. -/
def DefaultRetry : Backoff := { Steps := 5 }

/-- Modelled from the spec: the loop of `retry.OnError` (`wait.ExponentialBackoff` around
`fn`): `fn` is called while attempts remain; a nil error ends the loop with success, an
error that is not `retriable` ends it with that error, a retriable error is remembered in
`lastErr` and the next attempt starts.  When no attempt remains the remembered error is
returned in place of the timeout of the backoff.  The sleep between two attempts has no
effect on the result and is left out. -/
def onErrorLoop {σ : Type} (retriable : GoError → Bool) (fn : σ → Option GoError × σ) :
    Nat → Option GoError → σ → Option GoError × σ
  | 0, lastErr, s => (lastErr, s)
  | n + 1, _, s =>
    match fn s with
    | (none, s1) => (none, s1)
    | (some err, s1) =>
      if retriable err then onErrorLoop retriable fn n (some err) s1 else (some err, s1)

/-- Modelled from the spec: `retry.OnError` of `k8s.io/client-go/util/retry`. -/
def OnError {σ : Type} (backoff : Backoff) (retriable : GoError → Bool)
    (fn : σ → Option GoError × σ) (s : σ) : Option GoError × σ :=
  onErrorLoop retriable fn backoff.Steps none s

/-- Modelled from the spec: `retry.RetryOnConflict` of `k8s.io/client-go/util/retry`,
which is `OnError` with `apierrors.IsConflict` as the test. -/
def RetryOnConflict {σ : Type} (backoff : Backoff) (fn : σ → Option GoError × σ) (s : σ) :
    Option GoError × σ :=
  OnError backoff IsConflict fn s

/-! ## `ensureOAuthClient` -/

/-- The closure passed to `retry.RetryOnConflict` (source lines 51-77): one attempt of
the loop. -/
def ensureOAuthClient.func1 {σ : Type} (oauthClients : OAuthClientInterface σ)
    (client : OAuthClient) (s : σ) : Option GoError × σ :=
  -- existing, err := oauthClients.Get(ctx, client.Name, metav1.GetOptions{})
  match oauthClients.Get client.Name s with
  | (Except.error err, s1) => (some err, s1)
  | (Except.ok existing, s1) =>
    if semanticDeepEqual existing (existingCopy existing client) then (none, s1)
    else
      -- _, err = oauthClients.Update(ctx, existingCopy, metav1.UpdateOptions{})
      match oauthClients.Update (existingCopy existing client) s1 with
      | (Except.error err, s2) => (some err, s2)
      | (Except.ok _, s2) => (none, s2)

/-- The function `ensureOAuthClient` (source lines 45-78): the returned error (`none` is
Go's nil) and the state of the store after the call. -/
def ensureOAuthClient {σ : Type} (oauthClients : OAuthClientInterface σ)
    (client : OAuthClient) (s : σ) : Option GoError × σ :=
  -- _, err := oauthClients.Create(ctx, &client, metav1.CreateOptions{})
  match oauthClients.Create client s with
  | (Except.ok _, s1) => (none, s1)
  | (Except.error err, s1) =>
    -- if err == nil || !apierrors.IsAlreadyExists(err) { return err }
    if !IsAlreadyExists err then (some err, s1)
    else RetryOnConflict DefaultRetry (ensureOAuthClient.func1 oauthClients client) s1

/-! ## Observing the calls of a run -/

/-- One call made on the store, with the answer it got. -/
inductive Call where
  | create (client : OAuthClient) (res : Except GoError OAuthClient)
  | get (name : GoString) (res : Except GoError OAuthClient)
  | update (client : OAuthClient) (res : Except GoError OAuthClient)
deriving DecidableEq

/-- The same store, which also appends every call and its answer to a log kept next to
the state. -/
def recording {σ : Type} (oc : OAuthClientInterface σ) : OAuthClientInterface (σ × List Call) where
  Create := fun c p =>
    ((oc.Create c p.1).1, ((oc.Create c p.1).2, p.2 ++ [Call.create c (oc.Create c p.1).1]))
  Get := fun n p =>
    ((oc.Get n p.1).1, ((oc.Get n p.1).2, p.2 ++ [Call.get n (oc.Get n p.1).1]))
  Update := fun c p =>
    ((oc.Update c p.1).1, ((oc.Update c p.1).2, p.2 ++ [Call.update c (oc.Update c p.1).1]))

/-- The calls that a run of `ensureOAuthClient` makes on a store, in order, with their
answers. -/
def callsOf {σ : Type} (oc : OAuthClientInterface σ) (client : OAuthClient) (s : σ) : List Call :=
  (ensureOAuthClient (recording oc) client (s, [])).2.2

/-- The answers to the `Update` calls of a log, in order. -/
def updateResults : List Call → List (Except GoError OAuthClient)
  | [] => []
  | Call.update _ res :: rest => res :: updateResults rest
  | _ :: rest => updateResults rest

/-- The answers to the `Get` calls of a log, in order. -/
def getResults : List Call → List (Except GoError OAuthClient)
  | [] => []
  | Call.get _ res :: rest => res :: getResults rest
  | _ :: rest => getResults rest

/-- Whether an answer of the store is a refusal with a version conflict. -/
def isConflictAnswer : Except GoError OAuthClient → Bool
  | Except.error e => IsConflict e
  | Except.ok _ => false

/-- Whether an answer of the store is a record. -/
def isRecord : Except GoError OAuthClient → Bool
  | Except.ok _ => true
  | Except.error _ => false

/-- Whether an answer of the store is a record or a refusal with a version conflict. -/
def isRecordOrConflict : Except GoError OAuthClient → Bool
  | Except.ok _ => true
  | Except.error e => IsConflict e

/-- The answer that a call got from the store. -/
def Call.answer : Call → Except GoError OAuthClient
  | Call.create _ res => res
  | Call.get _ res => res
  | Call.update _ res => res

/-- The records that the store accepted from the `Create` and `Update` calls of a log:
the writes of the run that were applied. -/
def acceptedWrites : List Call → List OAuthClient
  | [] => []
  | Call.create _ (Except.ok w) :: rest => w :: acceptedWrites rest
  | Call.update _ (Except.ok w) :: rest => w :: acceptedWrites rest
  | _ :: rest => acceptedWrites rest

/-- Every `Update` of the log comes right after a `Get` of `client.Name` that returned a
record, and it sends the merge of that very record with `client`. -/
def UpdatesFollowReads (client : OAuthClient) (log : List Call) : Prop :=
  ∀ (i : Nat) (c : OAuthClient) (res : Except GoError OAuthClient),
    log[i]? = some (Call.update c res) →
    ∃ j r, i = j + 1 ∧ log[j]? = some (Call.get client.Name (Except.ok r)) ∧
      c = existingCopy r client

/-! ## A store without other writers -/

/-- Modelled from the spec: the remote store of section 6 when no other writer touches
it: the records, found by name, and the counter from which version tokens are drawn. -/
structure MemStore where
  rev : Nat
  items : List OAuthClient
deriving DecidableEq

/-- The record stored under a name, if any. -/
def MemStore.lookup (st : MemStore) (name : GoString) : Option OAuthClient :=
  st.items.find? (fun r => decide (r.Name = name))

/-- Modelled from the spec: `create(record)`, refused as already-exists when the name is
taken; otherwise the record is stored with a new version token. -/
def MemStore.Create (c : OAuthClient) (st : MemStore) : Except GoError OAuthClient × MemStore :=
  match st.lookup c.Name with
  | some _ => (Except.error { Reason := StatusReason.AlreadyExists, Message := c.Name }, st)
  | none =>
    (Except.ok { c with ResourceVersion := st.rev + 1 },
      { rev := st.rev + 1, items := st.items ++ [{ c with ResourceVersion := st.rev + 1 }] })

/-- Modelled from the spec: `get(name)`, the stored record with its version token, or a
not-found error. -/
def MemStore.Get (name : GoString) (st : MemStore) : Except GoError OAuthClient × MemStore :=
  match st.lookup name with
  | some r => (Except.ok r, st)
  | none => (Except.error { Reason := StatusReason.NotFound, Message := name }, st)

/-- Modelled from the spec: `update(record)`, refused as a version conflict when the
token of the record is not the token of the stored one; otherwise the record replaces
the stored one and gets a new version token. -/
def MemStore.Update (c : OAuthClient) (st : MemStore) : Except GoError OAuthClient × MemStore :=
  match st.lookup c.Name with
  | none => (Except.error { Reason := StatusReason.NotFound, Message := c.Name }, st)
  | some cur =>
    if cur.ResourceVersion = c.ResourceVersion then
      (Except.ok { c with ResourceVersion := st.rev + 1 },
        { rev := st.rev + 1,
          items := st.items.map
            (fun r => if r.Name = c.Name then { c with ResourceVersion := st.rev + 1 } else r) })
    else (Except.error { Reason := StatusReason.Conflict, Message := c.Name }, st)

/-- The store without other writers, as a client interface. -/
def memStore : OAuthClientInterface MemStore where
  Create := MemStore.Create
  Get := MemStore.Get
  Update := MemStore.Update

/-- The record `r` carries the five reconciled fields of the record `c`. -/
def sameReconciledFields (r c : OAuthClient) : Prop :=
  r.Secret = c.Secret ∧ r.RespondWithChallenges = c.RespondWithChallenges ∧
  r.RedirectURIs = c.RedirectURIs ∧ r.GrantMethod = c.GrantMethod ∧
  r.ScopeRestrictions = c.ScopeRestrictions

/-- Modelled from the spec: the contract of the remote store (section 6) during a period
without external interference, for a store `oc` whose content in a state is given by
`view`: an accepted create or update leaves the written fields stored under the name of
the record; a create on a taken name is refused as already-exists and changes nothing; a
successful read returns the record stored under the name it asked for, and a stored
record is read back unchanged.  Calls may still fail for any other reason. -/
structure QuietStore {σ : Type} (oc : OAuthClientInterface σ)
    (view : σ → GoString → Option OAuthClient) : Prop where
  create_ok : ∀ (c : OAuthClient) (s : σ) (w : OAuthClient) (s1 : σ),
    oc.Create c s = (Except.ok w, s1) → ∃ r, view s1 c.Name = some r ∧ sameReconciledFields r c
  create_taken : ∀ (c : OAuthClient) (s : σ) (r : OAuthClient),
    view s c.Name = some r → ∃ e, IsAlreadyExists e = true ∧ oc.Create c s = (Except.error e, s)
  get_ok : ∀ (n : GoString) (s : σ) (r : OAuthClient) (s1 : σ),
    oc.Get n s = (Except.ok r, s1) → r.Name = n ∧ view s1 n = some r
  get_found : ∀ (n : GoString) (s : σ) (r : OAuthClient),
    view s n = some r → oc.Get n s = (Except.ok r, s)
  update_ok : ∀ (c : OAuthClient) (s : σ) (w : OAuthClient) (s1 : σ),
    oc.Update c s = (Except.ok w, s1) → ∃ r, view s1 c.Name = some r ∧ sameReconciledFields r c

/-! ## Entropy helpers (source lines 80-104) -/

/-- Modelled from the spec: the random source `crypto/rand.Reader`.  One outcome of the
source is either a failure or an unbounded supply of bytes. -/
structure RandReader where
  fails : Bool
  supply : Nat → Byte

/-- Modelled from the spec: `rand.Read(b)` on a buffer of `n` bytes: a failure, or the
buffer filled with the next `n` bytes of the source. -/
def randRead (r : RandReader) (n : Nat) : Option (List Byte) :=
  if r.fails then none else some ((List.range n).map r.supply)

/-- Modelled from the spec: `runtime.maxAlloc` of the Go runtime on a 64-bit platform, the
largest size that `make([]byte, n)` accepts; a larger `n` panics with `makeslice: len out
of range`. -/
def maxAlloc : Nat := 2 ^ 48

/-- Modelled from the spec: the allocator behind `make`.  `limit` is the largest byte
slice that it can provide at the time of the call: never more than `maxAlloc`, and less
when the machine is short of memory. -/
structure Allocator where
  limit : Nat
  limit_le : limit ≤ maxAlloc

/-- The function `randomBits` (source lines 80-90).  `none` is an abort of the program:
the panic of `make` on a negative size or on a size above what the allocator accepts, the
fatal error of an allocation that the machine cannot serve, or the explicit panic when
the random source fails.  Go's `/` and `%` truncate toward zero.  A result is returned
only for `bits` up to `8 * maxAlloc`, well inside the range of a 64-bit `int`, where
neither `bits / 8` nor `size++` wraps. -/
def randomBits (bits : Int) (a : Allocator) (r : RandReader) : Option (List Byte) :=
  -- size := bits / 8
  let size := Int.tdiv bits 8
  -- if bits%8 != 0 { size++ }
  let size := if Int.tmod bits 8 ≠ 0 then size + 1 else size
  -- b := make([]byte, size)
  if size < 0 ∨ (a.limit : Int) < size then none
  else
    -- if _, err := rand.Read(b); err != nil { panic(err) }
    randRead r size.toNat

/-- Modelled from the spec: the alphabet of `base64.URLEncoding` in Go's
`encoding/base64` (RFC 4648, section 5). -/
def encodeURL : List Byte :=
  "ABCDEFGHIJKLMNOPQRSTUVWXYZabcdefghijklmnopqrstuvwxyz0123456789-_".toList.map
    (fun c => Fin.ofNat c.toNat)

/-- The character of the alphabet at an index, `enc.encode[i]`. -/
def encodeChar (i : Nat) : Byte := encodeURL.getD i 0

/-- Modelled from the spec: `base64.RawURLEncoding.EncodeToString` of Go's
`encoding/base64`: every group of three bytes gives four characters, a last group of
two bytes gives three, a last single byte gives two, and no padding is written. -/
def RawURLEncoding.EncodeToString : List Byte → GoString
  | b0 :: b1 :: b2 :: rest =>
    -- val := uint(src[si+0])<<16 | uint(src[si+1])<<8 | uint(src[si+2])
    let val := (b0.val <<< 16) ||| (b1.val <<< 8) ||| b2.val
    encodeChar ((val >>> 18) &&& 0x3F) :: encodeChar ((val >>> 12) &&& 0x3F) ::
      encodeChar ((val >>> 6) &&& 0x3F) :: encodeChar (val &&& 0x3F) ::
      RawURLEncoding.EncodeToString rest
  | [b0, b1] =>
    let val := (b0.val <<< 16) ||| (b1.val <<< 8)
    [encodeChar ((val >>> 18) &&& 0x3F), encodeChar ((val >>> 12) &&& 0x3F),
      encodeChar ((val >>> 6) &&& 0x3F)]
  | [b0] =>
    let val := b0.val <<< 16
    [encodeChar ((val >>> 18) &&& 0x3F), encodeChar ((val >>> 12) &&& 0x3F)]
  | [] => []

/-- Modelled from the spec: `base64.RawURLEncoding.EncodedLen(n)`, the length of the
encoding of `n` bytes. -/
def RawURLEncoding.EncodedLen (n : Nat) : Nat := n / 3 * 4 + (n % 3 * 8 + 5) / 6

/-- The function `randomBitsString` (source lines 94-96). -/
def randomBitsString (bits : Int) (a : Allocator) (r : RandReader) : Option GoString :=
  (randomBits bits a r).map RawURLEncoding.EncodeToString

/-- The function `random256BitsString` (source lines 101-104). -/
def random256BitsString (a : Allocator) (r : RandReader) : Option GoString :=
  randomBitsString 256 a r

/-- The character class `[A-Za-z0-9_-]`, on the byte of an ASCII character. -/
def isURLSafeChar (b : Byte) : Bool :=
  (Char.ofNat b.val).isAlphanum || Char.ofNat b.val == '-' || Char.ofNat b.val == '_'

/-! ## The shape of a run -/

/-- The calls that the retry loop of `ensureOAuthClient` can make on the store and the
error it then returns: `LoopTrace client n lastErr result calls` reads "with `n`
attempts left and `lastErr` as the remembered error, the loop makes `calls` and returns
`result`".  Each constructor is one way through the closure of lines 51-77. -/
inductive LoopTrace (client : OAuthClient) :
    Nat → Option GoError → Option GoError → List Call → Prop where
  | exhausted (lastErr : Option GoError) : LoopTrace client 0 lastErr lastErr []
  | getFailed (n : Nat) (lastErr : Option GoError) (e : GoError) :
      IsConflict e = false →
      LoopTrace client (n + 1) lastErr (some e) [Call.get client.Name (Except.error e)]
  | getConflict (n : Nat) (lastErr : Option GoError) (e : GoError) (result : Option GoError)
      (rest : List Call) :
      IsConflict e = true → LoopTrace client n (some e) result rest →
      LoopTrace client (n + 1) lastErr result (Call.get client.Name (Except.error e) :: rest)
  | noChange (n : Nat) (lastErr : Option GoError) (r : OAuthClient) :
      existingCopy r client = r →
      LoopTrace client (n + 1) lastErr none [Call.get client.Name (Except.ok r)]
  | updated (n : Nat) (lastErr : Option GoError) (r w : OAuthClient) :
      existingCopy r client ≠ r →
      LoopTrace client (n + 1) lastErr none
        [Call.get client.Name (Except.ok r), Call.update (existingCopy r client) (Except.ok w)]
  | updateFailed (n : Nat) (lastErr : Option GoError) (r : OAuthClient) (e : GoError) :
      existingCopy r client ≠ r → IsConflict e = false →
      LoopTrace client (n + 1) lastErr (some e)
        [Call.get client.Name (Except.ok r), Call.update (existingCopy r client) (Except.error e)]
  | updateConflict (n : Nat) (lastErr : Option GoError) (r : OAuthClient) (e : GoError)
      (result : Option GoError) (rest : List Call) :
      existingCopy r client ≠ r → IsConflict e = true → LoopTrace client n (some e) result rest →
      LoopTrace client (n + 1) lastErr result
        (Call.get client.Name (Except.ok r) ::
          Call.update (existingCopy r client) (Except.error e) :: rest)

/-! ## Sample records and stores -/

/-- A record with the given name, version token and secret; every other field has the
zero value of its Go type. -/
def sampleClient (name : GoString) (version : Nat) (secret : GoString) : OAuthClient :=
  { Name := name
    ResourceVersion := version
    UID := []
    Secret := secret
    AdditionalSecrets := []
    RespondWithChallenges := false
    RedirectURIs := []
    GrantMethod := []
    ScopeRestrictions := []
    AccessTokenMaxAgeSeconds := none
    AccessTokenInactivityTimeoutSeconds := none }

/-- The bytes of the name `cli`. -/
def cli : GoString := [99, 108, 105]

/-- The bytes of the secret `abc`. -/
def abc : GoString := [97, 98, 99]

/-- The bytes of the secret `abcdXYZ12`. -/
def abcdXYZ12 : GoString := [97, 98, 99, 100, 88, 89, 90, 49, 50]

/-- A store that holds one record, `cli` with the secret `abc` and version token 1. -/
def storeWithCli : MemStore := { rev := 1, items := [sampleClient cli 1 abc] }

/-- A desired record for `cli` whose reconciled fields all differ from the ones of
`sampleClient cli 1 abc`. -/
def desiredCli : OAuthClient :=
  { sampleClient cli 0 abcdXYZ12 with
    RespondWithChallenges := true
    RedirectURIs := [abc]
    GrantMethod := [97, 117, 116, 111]
    ScopeRestrictions := [{ ExactValues := [abc], ClusterRole := none }] }

/-- Another writer of the store: it rewrites the record of the given name, which gives the
record a new version token. -/
def otherWriter (name : GoString) (st : MemStore) : MemStore :=
  { rev := st.rev + 1
    items := st.items.map (fun r => if r.Name = name then { r with ResourceVersion := st.rev + 1 } else r) }

/-- A store with another writer who, the first `k` times the reconciler reads a record,
rewrites that record before the reconciler can write it back; `k` is the second
component of the state. -/
def contendedStore : OAuthClientInterface (MemStore × Nat) where
  Create := fun c p => ((MemStore.Create c p.1).1, ((MemStore.Create c p.1).2, p.2))
  Get := fun n p =>
    ((MemStore.Get n p.1).1, (if p.2 = 0 then p.1 else otherWriter n p.1, p.2 - 1))
  Update := fun c p => ((MemStore.Update c p.1).1, ((MemStore.Update c p.1).2, p.2))

/-- A second reconciler with the desired record `peer`: it merges `peer` into the record
stored under the given name and writes the result, which gives the record a new version
token. -/
def peerWriter (peer : OAuthClient) (name : GoString) (st : MemStore) : MemStore :=
  { rev := st.rev + 1
    items := st.items.map (fun r =>
      if r.Name = name then { existingCopy r peer with ResourceVersion := st.rev + 1 } else r) }

/-- A store shared with a second reconciler that has the same desired record `peer`: the
first `k` times this reconciler reads a record, the peer writes its own merge before this
reconciler can write back; `k` is the second component of the state. -/
def peerStore (peer : OAuthClient) : OAuthClientInterface (MemStore × Nat) where
  Create := fun c p => ((MemStore.Create c p.1).1, ((MemStore.Create c p.1).2, p.2))
  Get := fun n p =>
    ((MemStore.Get n p.1).1, (if p.2 = 0 then p.1 else peerWriter peer n p.1, p.2 - 1))
  Update := fun c p => ((MemStore.Update c p.1).1, ((MemStore.Update c p.1).2, p.2))

/-- A test double that answers every call of one kind with the same answer. -/
def fixedStore (create get update : Except GoError OAuthClient) : OAuthClientInterface Unit where
  Create := fun _ u => (create, u)
  Get := fun _ u => (get, u)
  Update := fun _ u => (update, u)

/-- The already-exists error for the name `cli`. -/
def errAlreadyExists : GoError := { Reason := StatusReason.AlreadyExists, Message := cli }

/-- The conflict error for the name `cli`. -/
def errConflict : GoError := { Reason := StatusReason.Conflict, Message := cli }

/-- The not-found error for the name `cli`. -/
def errNotFound : GoError := { Reason := StatusReason.NotFound, Message := cli }

/-- An allocator on a machine with memory to spare: it provides every slice that `make`
accepts. -/
def largestAllocator : Allocator := { limit := maxAlloc, limit_le := Nat.le_refl maxAlloc }

/-- A random source that does not fail and supplies the bytes 250, 31, 68, 105, ... -/
def sampleReader : RandReader := { fails := false, supply := fun i => Fin.ofNat (i * 37 + 250) }

/-! # Theorems -/

/-! ## The merge -/

theorem existingCopy_Secret (s d : OAuthClient) :
    (existingCopy s d).Secret =
      if d.Secret.length = 0 then d.Secret
      else if s.Secret.length < d.Secret.length then d.Secret else s.Secret := by
  unfold existingCopy
  by_cases h0 : d.Secret.length = 0
  · have hd : d.Secret = [] := List.length_eq_zero.mp h0
    simp [hd]
  · by_cases h1 : s.Secret.length < d.Secret.length <;> simp [h0, h1]

theorem existingCopy_idem (s d : OAuthClient) :
    existingCopy (existingCopy s d) d = existingCopy s d := by
  unfold existingCopy
  by_cases h0 : d.Secret.length = 0
  · have hd : d.Secret = [] := List.length_eq_zero.mp h0
    simp [hd]
  · by_cases h1 : s.Secret.length < d.Secret.length <;> simp [h0, h1]

/-- The merge only writes the five reconciled fields: the result is the stored record
with these five fields replaced. -/
theorem existingCopy_frame (s d : OAuthClient) :
    existingCopy s d =
      { s with
        Secret := (existingCopy s d).Secret
        RespondWithChallenges := d.RespondWithChallenges
        RedirectURIs := d.RedirectURIs
        GrantMethod := d.GrantMethod
        ScopeRestrictions := d.ScopeRestrictions } := by
  unfold existingCopy
  by_cases h0 : d.Secret.length = 0
  · have hd : d.Secret = [] := List.length_eq_zero.mp h0
    simp [hd]
  · by_cases h1 : s.Secret.length < d.Secret.length <;> simp [h0, h1]

theorem existingCopy_Name (s d : OAuthClient) : (existingCopy s d).Name = s.Name := by
  rw [existingCopy_frame]

theorem existingCopy_ResourceVersion (s d : OAuthClient) :
    (existingCopy s d).ResourceVersion = s.ResourceVersion := by
  rw [existingCopy_frame]

theorem existingCopy_self (d : OAuthClient) : existingCopy d d = d := by
  unfold existingCopy
  by_cases h0 : d.Secret.length = 0
  · have hd : d.Secret = [] := List.length_eq_zero.mp h0
    simp [hd]
    cases d
    simp_all
  · simp [h0]

/-! ## Runs on a recording store -/

theorem attempt_recording {σ : Type} (oc : OAuthClientInterface σ) (client : OAuthClient)
    (s : σ) (log : List Call) :
    (∃ e, oc.Get client.Name s = (Except.error e, (oc.Get client.Name s).2) ∧
      ensureOAuthClient.func1 (recording oc) client (s, log) =
        (some e, ((oc.Get client.Name s).2, log ++ [Call.get client.Name (Except.error e)]))) ∨
    (∃ r, existingCopy r client = r ∧
      ensureOAuthClient.func1 (recording oc) client (s, log) =
        (none, ((oc.Get client.Name s).2, log ++ [Call.get client.Name (Except.ok r)]))) ∨
    (∃ r res s2, existingCopy r client ≠ r ∧
      ensureOAuthClient.func1 (recording oc) client (s, log) =
        ((match res with | Except.ok _ => none | Except.error e => some e),
          (s2, log ++ [Call.get client.Name (Except.ok r),
            Call.update (existingCopy r client) res]))) := by
  unfold ensureOAuthClient.func1
  rcases hg : oc.Get client.Name s with ⟨res, s1⟩
  cases res with
  | error e =>
    left
    exact ⟨e, by simp, by simp [recording, hg]⟩
  | ok r =>
    right
    by_cases heq : existingCopy r client = r
    · left
      refine ⟨r, heq, ?_⟩
      simp [recording, hg, semanticDeepEqual, heq]
    · right
      rcases hu : oc.Update (existingCopy r client) s1 with ⟨res2, s2⟩
      refine ⟨r, res2, s2, heq, ?_⟩
      have hne : ¬ r = existingCopy r client := fun h => heq h.symm
      cases res2 <;> simp [recording, hg, hu, semanticDeepEqual, hne]

theorem onErrorLoop_trace {σ : Type} (oc : OAuthClientInterface σ) (client : OAuthClient) :
    ∀ (n : Nat) (lastErr : Option GoError) (s : σ) (log : List Call),
      ∃ calls,
        LoopTrace client n lastErr
          (onErrorLoop IsConflict (ensureOAuthClient.func1 (recording oc) client) n lastErr
            (s, log)).1 calls ∧
        (onErrorLoop IsConflict (ensureOAuthClient.func1 (recording oc) client) n lastErr
            (s, log)).2.2 = log ++ calls := by
  intro n
  induction n with
  | zero =>
    intro lastErr s log
    exact ⟨[], by simpa [onErrorLoop] using LoopTrace.exhausted lastErr, by simp [onErrorLoop]⟩
  | succ n ih =>
    intro lastErr s log
    rcases attempt_recording oc client s log with ⟨e, -, h⟩ | ⟨r, heq, h⟩ | ⟨r, res, s2, hne, h⟩
    · by_cases hc : IsConflict e = true
      · obtain ⟨calls, ht, hl⟩ := ih (some e) (oc.Get client.Name s).2
          (log ++ [Call.get client.Name (Except.error e)])
        refine ⟨Call.get client.Name (Except.error e) :: calls, ?_, ?_⟩
        · simp only [onErrorLoop, h, hc, if_true]
          exact LoopTrace.getConflict n lastErr e _ calls hc ht
        · simp only [onErrorLoop, h, hc, if_true, hl]
          simp
      · have hc2 : IsConflict e = false := by simpa using hc
        refine ⟨[Call.get client.Name (Except.error e)], ?_, ?_⟩
        · simp only [onErrorLoop, h, hc2]
          exact LoopTrace.getFailed n lastErr e hc2
        · simp [onErrorLoop, h, hc2]
    · refine ⟨[Call.get client.Name (Except.ok r)], ?_, ?_⟩
      · simp only [onErrorLoop, h]
        exact LoopTrace.noChange n lastErr r heq
      · simp [onErrorLoop, h]
    · cases res with
      | ok w =>
        refine ⟨[Call.get client.Name (Except.ok r),
          Call.update (existingCopy r client) (Except.ok w)], ?_, ?_⟩
        · simp only [onErrorLoop, h]
          exact LoopTrace.updated n lastErr r w hne
        · simp [onErrorLoop, h]
      | error e =>
        by_cases hc : IsConflict e = true
        · obtain ⟨calls, ht, hl⟩ := ih (some e) s2
            (log ++ [Call.get client.Name (Except.ok r),
              Call.update (existingCopy r client) (Except.error e)])
          refine ⟨Call.get client.Name (Except.ok r) ::
            Call.update (existingCopy r client) (Except.error e) :: calls, ?_, ?_⟩
          · simp only [onErrorLoop, h, hc, if_true]
            exact LoopTrace.updateConflict n lastErr r e _ calls hne hc ht
          · simp only [onErrorLoop, h, hc, if_true, hl]
            simp
        · have hc2 : IsConflict e = false := by simpa using hc
          refine ⟨[Call.get client.Name (Except.ok r),
            Call.update (existingCopy r client) (Except.error e)], ?_, ?_⟩
          · simp only [onErrorLoop, h, hc2]
            exact LoopTrace.updateFailed n lastErr r e hne hc2
          · simp [onErrorLoop, h, hc2]

/-- Every run of `ensureOAuthClient` on a recording store, started with an empty log,
has one of three shapes: an accepted create; a create refused for a reason other than
already-exists; or a create refused as already-exists followed by the calls of the retry
loop with the default budget. -/
theorem ensureOAuthClient_trace {σ : Type} (oc : OAuthClientInterface σ) (client : OAuthClient)
    (s : σ) :
    (∃ w, (ensureOAuthClient (recording oc) client (s, [])).1 = none ∧
      (ensureOAuthClient (recording oc) client (s, [])).2.2 =
        [Call.create client (Except.ok w)]) ∨
    (∃ e, IsAlreadyExists e = false ∧
      (ensureOAuthClient (recording oc) client (s, [])).1 = some e ∧
      (ensureOAuthClient (recording oc) client (s, [])).2.2 =
        [Call.create client (Except.error e)]) ∨
    (∃ e calls, IsAlreadyExists e = true ∧
      LoopTrace client DefaultRetry.Steps none
        (ensureOAuthClient (recording oc) client (s, [])).1 calls ∧
      (ensureOAuthClient (recording oc) client (s, [])).2.2 =
        Call.create client (Except.error e) :: calls) := by
  rcases hc : oc.Create client s with ⟨res, s1⟩
  cases res with
  | ok w =>
    left
    exact ⟨w, by simp [ensureOAuthClient, recording, hc], by simp [ensureOAuthClient, recording, hc]⟩
  | error e =>
    right
    by_cases hae : IsAlreadyExists e = true
    · right
      obtain ⟨calls, ht, hl⟩ := onErrorLoop_trace oc client DefaultRetry.Steps none s1
        [Call.create client (Except.error e)]
      refine ⟨e, calls, hae, ?_, ?_⟩
      · simpa [ensureOAuthClient, recording, hc, hae, RetryOnConflict, OnError] using ht
      · simpa [ensureOAuthClient, recording, hc, hae, RetryOnConflict, OnError] using hl
    · left
      have hae2 : IsAlreadyExists e = false := by simpa using hae
      exact ⟨e, hae2, by simp [ensureOAuthClient, recording, hc, hae2],
        by simp [ensureOAuthClient, recording, hc, hae2]⟩

/-! ## What every trace of the loop satisfies -/

theorem LoopTrace.updatesFollowReads {client : OAuthClient} {n : Nat}
    {lastErr result : Option GoError} {calls : List Call}
    (h : LoopTrace client n lastErr result calls) : UpdatesFollowReads client calls := by
  induction h with
  | exhausted lastErr => intro i c res hi; simp at hi
  | getFailed n lastErr e hc =>
    intro i c res hi
    rcases i with _ | i <;> simp at hi
  | getConflict n lastErr e result rest hc ht ih =>
    intro i c res hi
    rcases i with _ | i
    · simp at hi
    · obtain ⟨j, r, hj, hg, hcopy⟩ := ih i c res (by simpa using hi)
      exact ⟨j + 1, r, by omega, by simpa using hg, hcopy⟩
  | noChange n lastErr r heq =>
    intro i c res hi
    rcases i with _ | i <;> simp at hi
  | updated n lastErr r w hne =>
    intro i c res hi
    rcases i with _ | _ | i
    · simp at hi
    · simp at hi
      exact ⟨0, r, rfl, by simp, hi.1.symm⟩
    · simp at hi
  | updateFailed n lastErr r e hne hc =>
    intro i c res hi
    rcases i with _ | _ | i
    · simp at hi
    · simp at hi
      exact ⟨0, r, rfl, by simp, hi.1.symm⟩
    · simp at hi
  | updateConflict n lastErr r e result rest hne hc ht ih =>
    intro i c res hi
    rcases i with _ | _ | i
    · simp at hi
    · simp at hi
      exact ⟨0, r, rfl, by simp, hi.1.symm⟩
    · obtain ⟨j, r2, hj, hg, hcopy⟩ := ih i c res (by simpa using hi)
      exact ⟨j + 2, r2, by omega, by simpa using hg, hcopy⟩

theorem LoopTrace.updates_le_gets {client : OAuthClient} {n : Nat}
    {lastErr result : Option GoError} {calls : List Call}
    (h : LoopTrace client n lastErr result calls) :
    (updateResults calls).length ≤ (getResults calls).length := by
  induction h <;> simp [updateResults, getResults] <;> omega

theorem LoopTrace.length_eq {client : OAuthClient} {n : Nat}
    {lastErr result : Option GoError} {calls : List Call}
    (h : LoopTrace client n lastErr result calls) :
    calls.length = (getResults calls).length + (updateResults calls).length := by
  induction h <;> simp [updateResults, getResults] <;> omega

theorem LoopTrace.gets_le_budget {client : OAuthClient} {n : Nat}
    {lastErr result : Option GoError} {calls : List Call}
    (h : LoopTrace client n lastErr result calls) :
    (getResults calls).length ≤ n := by
  induction h <;> simp [updateResults, getResults] <;> omega

/-- A `Get` that fails with an error that is not a conflict is the last call of the
loop, and its error is what the loop returns. -/
theorem LoopTrace.failed_get_is_last {client : OAuthClient} {n : Nat}
    {lastErr result : Option GoError} {calls : List Call}
    (h : LoopTrace client n lastErr result calls) :
    ∀ (i : Nat) (name : GoString) (e : GoError),
      calls[i]? = some (Call.get name (Except.error e)) → IsConflict e = false →
      i + 1 = calls.length ∧ result = some e := by
  induction h with
  | exhausted lastErr => intro i name e hi; simp at hi
  | getFailed n lastErr e hc =>
    intro i name e2 hi _
    rcases i with _ | i
    · simp at hi
      simp [hi.2]
    · simp at hi
  | getConflict n lastErr e result rest hc ht ih =>
    intro i name e2 hi hnc
    rcases i with _ | i
    · simp at hi
      rw [hi.2] at hc
      simp [hc] at hnc
    · obtain ⟨h1, h2⟩ := ih i name e2 (by simpa using hi) hnc
      exact ⟨by simp; omega, h2⟩
  | noChange n lastErr r heq =>
    intro i name e hi
    rcases i with _ | i <;> simp at hi
  | updated n lastErr r w hne =>
    intro i name e hi
    rcases i with _ | _ | i <;> simp at hi
  | updateFailed n lastErr r e hne hc =>
    intro i name e2 hi
    rcases i with _ | _ | i <;> simp at hi
  | updateConflict n lastErr r e result rest hne hc ht ih =>
    intro i name e2 hi hnc
    rcases i with _ | _ | i
    · simp at hi
    · simp at hi
    · obtain ⟨h1, h2⟩ := ih i name e2 (by simpa using hi) hnc
      exact ⟨by simp; omega, h2⟩

/-- A trace whose updates are some rejections followed by one acceptance: the loop
returns success, the rejections are conflicts and fewer than the budget, and the trace
ends with a read and the accepted update of the merge of the record just read. -/
theorem LoopTrace.accepted_after_conflicts {client : OAuthClient} {n : Nat}
    {lastErr result : Option GoError} {calls : List Call}
    (h : LoopTrace client n lastErr result calls) :
    ∀ (es : List GoError) (w : OAuthClient),
      updateResults calls = es.map Except.error ++ [Except.ok w] →
      result = none ∧ es.length < n ∧ (∀ e ∈ es, IsConflict e = true) ∧
      ∃ pre r, calls = pre ++ [Call.get client.Name (Except.ok r),
        Call.update (existingCopy r client) (Except.ok w)] := by
  induction h with
  | exhausted lastErr => intro es w hu; simp [updateResults] at hu
  | getFailed n lastErr e hc => intro es w hu; simp [updateResults] at hu
  | getConflict n lastErr e result rest hc ht ih =>
    intro es w hu
    obtain ⟨h1, h2, hcs, pre, r, h3⟩ := ih es w (by simpa [updateResults] using hu)
    exact ⟨h1, by omega, hcs, Call.get client.Name (Except.error e) :: pre, r, by simp [h3]⟩
  | noChange n lastErr r heq => intro es w hu; simp [updateResults] at hu
  | updated n lastErr r w0 hne =>
    intro es w hu
    cases es with
    | nil =>
      simp [updateResults] at hu
      exact ⟨rfl, by simp, by simp, [], r, by simp [hu]⟩
    | cons e es => simp [updateResults] at hu
  | updateFailed n lastErr r e hne hc =>
    intro es w hu
    cases es with
    | nil => simp [updateResults] at hu
    | cons e es => simp [updateResults] at hu
  | updateConflict n lastErr r e result rest hne hc ht ih =>
    intro es w hu
    cases es with
    | nil =>
      simp [updateResults] at hu
    | cons e2 es =>
      simp [updateResults] at hu
      obtain ⟨h1, h2, hcs, pre, r2, h3⟩ := ih es w hu.2
      refine ⟨h1, by simp; omega, ?_,
        Call.get client.Name (Except.ok r) ::
          Call.update (existingCopy r client) (Except.error e) :: pre, r2, by simp [h3]⟩
      intro e3 he3
      rcases List.mem_cons.mp he3 with h4 | h4
      · rw [h4, ← hu.1]; exact hc
      · exact hcs e3 h4

/-- A trace in which every attempt ends in a version conflict (every read answers a
conflict or a record, every record read is followed by an update, every update is
rejected with a conflict) uses the whole budget: `n` reads, no accepted write, and the
loop returns the conflict error that the last call got. -/
theorem LoopTrace.conflicts_exhaust_budget {client : OAuthClient} {n : Nat}
    {lastErr result : Option GoError} {calls : List Call}
    (h : LoopTrace client n lastErr result calls) :
    (∀ res ∈ getResults calls, isRecordOrConflict res = true) →
    ((getResults calls).filter isRecord).length = (updateResults calls).length →
    (∀ res ∈ updateResults calls, isConflictAnswer res = true) →
    (getResults calls).length = n ∧ acceptedWrites calls = [] ∧
    (n = 0 → result = lastErr ∧ calls = []) ∧
    (0 < n → ∃ e, result = some e ∧ IsConflict e = true ∧
      calls.getLast?.map Call.answer = some (Except.error e)) := by
  induction h with
  | exhausted lastErr => intro _ _ _; simp [getResults, acceptedWrites]
  | getFailed n lastErr e hc =>
    intro hget
    simp [getResults, isRecordOrConflict, hc] at hget
  | getConflict n lastErr e result rest hc ht ih =>
    intro hget hfollow hupd
    simp only [getResults, List.mem_cons, forall_eq_or_imp] at hget
    simp only [getResults, updateResults, List.filter, isRecord] at hfollow
    simp only [updateResults] at hupd
    obtain ⟨h1, h2, h3, h4⟩ := ih hget.2 hfollow hupd
    refine ⟨by simp [getResults, h1], by simp [acceptedWrites, h2], by simp, fun _ => ?_⟩
    rcases Nat.eq_zero_or_pos n with hn | hn
    · obtain ⟨hres, hnil⟩ := h3 hn
      exact ⟨e, hres, hc, by simp [hnil, Call.answer]⟩
    · obtain ⟨e2, hr, hc2, hlast⟩ := h4 hn
      refine ⟨e2, hr, hc2, ?_⟩
      rw [List.getLast?_cons]
      cases hl : rest.getLast? with
      | none => simp [hl] at hlast
      | some c => simpa [hl] using hlast
  | noChange n lastErr r heq =>
    intro _ hfollow
    simp [getResults, updateResults, isRecord] at hfollow
  | updated n lastErr r w hne =>
    intro _ _ hupd
    simp [updateResults, isConflictAnswer] at hupd
  | updateFailed n lastErr r e hne hc =>
    intro _ _ hupd
    simp [updateResults, isConflictAnswer, hc] at hupd
  | updateConflict n lastErr r e result rest hne hc ht ih =>
    intro hget hfollow hupd
    simp only [getResults, List.mem_cons, forall_eq_or_imp] at hget
    simp only [getResults, updateResults, List.filter, isRecord, List.length_cons,
      Nat.add_right_cancel_iff] at hfollow
    simp only [updateResults, List.mem_cons, forall_eq_or_imp] at hupd
    obtain ⟨h1, h2, h3, h4⟩ := ih hget.2 hfollow hupd.2
    refine ⟨by simp [getResults, h1], by simp [acceptedWrites, h2], by simp, fun _ => ?_⟩
    rcases Nat.eq_zero_or_pos n with hn | hn
    · obtain ⟨hres, hnil⟩ := h3 hn
      exact ⟨e, hres, hc, by simp [hnil, Call.answer]⟩
    · obtain ⟨e2, hr, hc2, hlast⟩ := h4 hn
      refine ⟨e2, hr, hc2, ?_⟩
      rw [List.getLast?_cons, List.getLast?_cons]
      cases hl : rest.getLast? with
      | none => simp [hl] at hlast
      | some c => simpa [hl] using hlast

/-! ## The store without other writers -/

theorem existingCopy_eq_self_iff (s d : OAuthClient) :
    existingCopy s d = s ↔
      (existingCopy s d).Secret = s.Secret ∧ s.RespondWithChallenges = d.RespondWithChallenges ∧
      s.RedirectURIs = d.RedirectURIs ∧ s.GrantMethod = d.GrantMethod ∧
      s.ScopeRestrictions = d.ScopeRestrictions := by
  constructor
  · intro h
    refine ⟨by rw [h], ?_, ?_, ?_, ?_⟩
    · have := congrArg OAuthClient.RespondWithChallenges h
      simpa [existingCopy] using this.symm
    · have := congrArg OAuthClient.RedirectURIs h
      simpa [existingCopy] using this.symm
    · have := congrArg OAuthClient.GrantMethod h
      simpa [existingCopy] using this.symm
    · have := congrArg OAuthClient.ScopeRestrictions h
      simpa [existingCopy] using this.symm
  · rintro ⟨h1, h2, h3, h4, h5⟩
    have hS := existingCopy_Secret s d
    rw [h1] at hS
    unfold existingCopy
    by_cases h0 : d.Secret.length = 0
    · have hd : d.Secret = [] := List.length_eq_zero.mp h0
      simp [hd] at hS ⊢
      cases s
      simp_all
    · by_cases hlt : s.Secret.length < d.Secret.length
      · simp [h0, hlt] at hS ⊢
        cases s
        simp_all
      · simp [h0, hlt]
        cases s
        simp_all

theorem existingCopy_withVersion (s d : OAuthClient) (v : Nat) :
    existingCopy { s with ResourceVersion := v } d =
      { existingCopy s d with ResourceVersion := v } := by
  unfold existingCopy
  by_cases h0 : d.Secret.length = 0
  · have hd : d.Secret = [] := List.length_eq_zero.mp h0
    simp [hd]
  · by_cases hlt : s.Secret.length < d.Secret.length <;> simp [h0, hlt]

theorem MemStore.lookup_name {st : MemStore} {name : GoString} {r : OAuthClient}
    (h : st.lookup name = some r) : r.Name = name := by
  unfold MemStore.lookup at h
  have := List.find?_some h
  simpa using this

theorem find_after_replace (name : GoString) (w : OAuthClient) (hw : w.Name = name) :
    ∀ (items : List OAuthClient) (cur : OAuthClient),
      items.find? (fun r => decide (r.Name = name)) = some cur →
      (items.map (fun r => if r.Name = name then w else r)).find?
        (fun r => decide (r.Name = name)) = some w := by
  intro items
  induction items with
  | nil => intro cur h; simp at h
  | cons a rest ih =>
    intro cur h
    by_cases ha : a.Name = name
    · simp [List.find?, ha, hw]
    · simp only [List.find?, ha, decide_False] at h
      simp only [List.map, ha, if_false, List.find?, decide_False]
      exact ih cur h

/-- On the store without other writers `ensureOAuthClient` always succeeds, and the
record then stored under the name of the desired record is a fixed point of the merge. -/
theorem memStore_ensure (st : MemStore) (d : OAuthClient) :
    (ensureOAuthClient memStore d st).1 = none ∧
    ∃ r, (ensureOAuthClient memStore d st).2.lookup d.Name = some r ∧ existingCopy r d = r := by
  cases hl : st.lookup d.Name with
  | none =>
    have hc : memStore.Create d st =
        (Except.ok { d with ResourceVersion := st.rev + 1 },
          { rev := st.rev + 1, items := st.items ++ [{ d with ResourceVersion := st.rev + 1 }] }) := by
      simp [memStore, MemStore.Create, hl]
    refine ⟨by simp [ensureOAuthClient, hc], { d with ResourceVersion := st.rev + 1 }, ?_, ?_⟩
    · simp only [ensureOAuthClient, hc, MemStore.lookup]
      unfold MemStore.lookup at hl
      simp [List.find?_append, hl]
    · rw [existingCopy_withVersion, existingCopy_self]
  | some cur =>
    have hname := MemStore.lookup_name hl
    have hc : memStore.Create d st =
        (Except.error { Reason := StatusReason.AlreadyExists, Message := d.Name }, st) := by
      simp [memStore, MemStore.Create, hl]
    have hg : memStore.Get d.Name st = (Except.ok cur, st) := by
      simp [memStore, MemStore.Get, hl]
    by_cases heq : existingCopy cur d = cur
    · have hrun : ensureOAuthClient memStore d st = (none, st) := by
        simp [ensureOAuthClient, hc, IsAlreadyExists, RetryOnConflict, OnError, DefaultRetry,
          onErrorLoop, ensureOAuthClient.func1, hg, semanticDeepEqual, heq]
      rw [hrun]
      exact ⟨rfl, cur, hl, heq⟩
    · have hne : ¬ cur = existingCopy cur d := fun h => heq h.symm
      have hcn : (existingCopy cur d).Name = d.Name := by
        rw [existingCopy_Name, hname]
      have hcv : (existingCopy cur d).ResourceVersion = cur.ResourceVersion :=
        existingCopy_ResourceVersion cur d
      have hu : memStore.Update (existingCopy cur d) st =
          (Except.ok { existingCopy cur d with ResourceVersion := st.rev + 1 },
            MemStore.mk (st.rev + 1)
              (st.items.map (fun r => if r.Name = d.Name then
                { existingCopy cur d with ResourceVersion := st.rev + 1 } else r))) := by
        simp [memStore, MemStore.Update, hcn, hl, hcv]
      have hrun : ensureOAuthClient memStore d st =
          (none, MemStore.mk (st.rev + 1)
              (st.items.map (fun r => if r.Name = d.Name then
                { existingCopy cur d with ResourceVersion := st.rev + 1 } else r))) := by
        simp [ensureOAuthClient, hc, IsAlreadyExists, RetryOnConflict, OnError, DefaultRetry,
          onErrorLoop, ensureOAuthClient.func1, hg, semanticDeepEqual, hne, hu]
      rw [hrun]
      refine ⟨rfl, { existingCopy cur d with ResourceVersion := st.rev + 1 }, ?_, ?_⟩
      · have hwn : ({ existingCopy cur d with ResourceVersion := st.rev + 1 } :
            OAuthClient).Name = d.Name := hcn
        unfold MemStore.lookup at hl
        simp only [MemStore.lookup]
        exact find_after_replace d.Name { existingCopy cur d with ResourceVersion := st.rev + 1 }
          hwn st.items cur hl
      · rw [existingCopy_withVersion, existingCopy_idem]

/-! ## The entropy helpers -/

theorem encodeChar_safe :
    ∀ i : Fin 64, isURLSafeChar (encodeChar i.val) = true ∧
      Char.ofNat (encodeChar i.val).val ≠ '+' ∧ Char.ofNat (encodeChar i.val).val ≠ '/' ∧
      Char.ofNat (encodeChar i.val).val ≠ '=' := by
  decide

theorem encodeChar_mask_safe (v : Nat) :
    isURLSafeChar (encodeChar (v &&& 0x3F)) = true ∧
      Char.ofNat (encodeChar (v &&& 0x3F)).val ≠ '+' ∧
      Char.ofNat (encodeChar (v &&& 0x3F)).val ≠ '/' ∧
      Char.ofNat (encodeChar (v &&& 0x3F)).val ≠ '=' := by
  have h : v &&& 0x3F < 64 := Nat.lt_succ_of_le Nat.and_le_right
  exact encodeChar_safe ⟨v &&& 0x3F, h⟩

theorem EncodeToString_length :
    ∀ (n : Nat) (src : List Byte), src.length = n →
      (RawURLEncoding.EncodeToString src).length = RawURLEncoding.EncodedLen n := by
  intro n
  induction n using Nat.strong_induction_on with
  | _ n ih =>
    intro src hlen
    match src, hlen with
    | [], hlen =>
      subst hlen
      simp [RawURLEncoding.EncodeToString, RawURLEncoding.EncodedLen]
    | [b0], hlen =>
      subst hlen
      simp [RawURLEncoding.EncodeToString, RawURLEncoding.EncodedLen]
    | [b0, b1], hlen =>
      subst hlen
      simp [RawURLEncoding.EncodeToString, RawURLEncoding.EncodedLen]
    | b0 :: b1 :: b2 :: rest, hlen =>
      subst hlen
      have := ih rest.length (by simp; omega) rest rfl
      simp only [RawURLEncoding.EncodeToString, List.length_cons, this,
        RawURLEncoding.EncodedLen]
      omega

theorem EncodeToString_safe :
    ∀ (n : Nat) (src : List Byte), src.length = n →
      ∀ c ∈ RawURLEncoding.EncodeToString src,
        isURLSafeChar c = true ∧ Char.ofNat c.val ≠ '+' ∧ Char.ofNat c.val ≠ '/' ∧
          Char.ofNat c.val ≠ '=' := by
  intro n
  induction n using Nat.strong_induction_on with
  | _ n ih =>
    intro src hlen c hc
    match src, hlen with
    | [], hlen => simp [RawURLEncoding.EncodeToString] at hc
    | [b0], hlen =>
      simp only [RawURLEncoding.EncodeToString, List.mem_cons, List.mem_singleton,
        List.not_mem_nil, or_false] at hc
      rcases hc with h | h <;> (rw [h]; exact encodeChar_mask_safe _)
    | [b0, b1], hlen =>
      simp only [RawURLEncoding.EncodeToString, List.mem_cons, List.mem_singleton,
        List.not_mem_nil, or_false] at hc
      rcases hc with h | h | h <;> (rw [h]; exact encodeChar_mask_safe _)
    | b0 :: b1 :: b2 :: rest, hlen =>
      subst hlen
      simp only [RawURLEncoding.EncodeToString, List.mem_cons] at hc
      rcases hc with h | h | h | h | h
      · rw [h]; exact encodeChar_mask_safe _
      · rw [h]; exact encodeChar_mask_safe _
      · rw [h]; exact encodeChar_mask_safe _
      · rw [h]; exact encodeChar_mask_safe _
      · exact ih rest.length (by simp; omega) rest rfl c h

/-- On a positive number of bits `randomBits` aborts exactly when the random source fails
or the bytes needed exceed what the allocator provides, and otherwise returns
`ceil(bits/8)` bytes of the source. -/
theorem randomBits_pos (bits : Int) (a : Allocator) (r : RandReader) (hbits : 0 < bits) :
    ((r.fails = true ∨ 8 * (a.limit : Int) < bits) ∧ randomBits bits a r = none) ∨
    (r.fails = false ∧ bits ≤ 8 * (a.limit : Int) ∧
      ∃ n : Nat, bits ≤ 8 * (n : Int) ∧ 8 * (n : Int) < bits + 8 ∧
        randomBits bits a r = some ((List.range n).map r.supply)) := by
  have hd : Int.tdiv bits 8 = bits / 8 := Int.tdiv_eq_ediv (le_of_lt hbits) (by decide)
  have hm : Int.tmod bits 8 = bits % 8 := Int.tmod_eq_emod (le_of_lt hbits) (by decide)
  have key : ∀ size : Int, 0 ≤ size → bits ≤ 8 * size → 8 * size < bits + 8 →
      randomBits bits a r = (if size < 0 ∨ (a.limit : Int) < size then none
        else randRead r size.toNat) →
      ((r.fails = true ∨ 8 * (a.limit : Int) < bits) ∧ randomBits bits a r = none) ∨
      (r.fails = false ∧ bits ≤ 8 * (a.limit : Int) ∧
        ∃ n : Nat, bits ≤ 8 * (n : Int) ∧ 8 * (n : Int) < bits + 8 ∧
          randomBits bits a r = some ((List.range n).map r.supply)) := by
    intro size h0 h1 h2 hdef
    by_cases hlim : (a.limit : Int) < size
    · left
      exact ⟨Or.inr (by omega), by rw [hdef]; simp [hlim]⟩
    · have hcond : ¬ (size < 0 ∨ (a.limit : Int) < size) := by
        rintro (h | h)
        · omega
        · exact hlim h
      rw [if_neg hcond] at hdef
      cases hf : r.fails with
      | true =>
        left
        exact ⟨Or.inl rfl, by rw [hdef]; simp [randRead, hf]⟩
      | false =>
        right
        refine ⟨rfl, by omega, size.toNat, ?_, ?_, by rw [hdef]; simp [randRead, hf]⟩
        · rw [Int.toNat_of_nonneg h0]; exact h1
        · rw [Int.toNat_of_nonneg h0]; exact h2
  by_cases h8 : bits % 8 = 0
  · exact key (bits / 8) (by omega) (by omega) (by omega) (by simp [randomBits, hd, hm, h8])
  · exact key (bits / 8 + 1) (by omega) (by omega) (by omega)
      (by simp [randomBits, hd, hm, h8])

/-! ## Recording does not change a run -/

theorem recording_attempt {σ : Type} (oc : OAuthClientInterface σ) (client : OAuthClient)
    (s : σ) (log : List Call) :
    (ensureOAuthClient.func1 (recording oc) client (s, log)).1 =
        (ensureOAuthClient.func1 oc client s).1 ∧
    (ensureOAuthClient.func1 (recording oc) client (s, log)).2.1 =
        (ensureOAuthClient.func1 oc client s).2 := by
  unfold ensureOAuthClient.func1
  rcases hg : oc.Get client.Name s with ⟨res, s1⟩
  cases res with
  | error e => simp [recording, hg]
  | ok r =>
    by_cases heq : semanticDeepEqual r (existingCopy r client) = true
    · simp [recording, hg, heq]
    · rcases hu : oc.Update (existingCopy r client) s1 with ⟨res2, s2⟩
      cases res2 <;> simp [recording, hg, hu, heq]

theorem recording_loop {σ : Type} (oc : OAuthClientInterface σ) (client : OAuthClient) :
    ∀ (n : Nat) (lastErr : Option GoError) (s : σ) (log : List Call),
      (onErrorLoop IsConflict (ensureOAuthClient.func1 (recording oc) client) n lastErr
          (s, log)).1 =
        (onErrorLoop IsConflict (ensureOAuthClient.func1 oc client) n lastErr s).1 ∧
      (onErrorLoop IsConflict (ensureOAuthClient.func1 (recording oc) client) n lastErr
          (s, log)).2.1 =
        (onErrorLoop IsConflict (ensureOAuthClient.func1 oc client) n lastErr s).2 := by
  intro n
  induction n with
  | zero => intro lastErr s log; simp [onErrorLoop]
  | succ n ih =>
    intro lastErr s log
    obtain ⟨h1, h2⟩ := recording_attempt oc client s log
    rcases hr : ensureOAuthClient.func1 (recording oc) client (s, log) with ⟨err, s1, log1⟩
    rcases hp : ensureOAuthClient.func1 oc client s with ⟨err2, s2⟩
    rw [hr, hp] at h1 h2
    simp only at h1 h2
    subst h1 h2
    cases err with
    | none => simp [onErrorLoop, hr, hp]
    | some e =>
      by_cases hc : IsConflict e = true
      · simpa [onErrorLoop, hr, hp, hc] using ih (some e) s1 log1
      · simp [onErrorLoop, hr, hp, hc]

/-- The recording store returns the same error and leaves the same store state as the
store it wraps. -/
theorem recording_ensure {σ : Type} (oc : OAuthClientInterface σ) (client : OAuthClient)
    (s : σ) :
    ensureOAuthClient (recording oc) client (s, []) =
      ((ensureOAuthClient oc client s).1, ((ensureOAuthClient oc client s).2, callsOf oc client s)) := by
  have hcalls : (ensureOAuthClient (recording oc) client (s, [])).2.2 = callsOf oc client s := rfl
  have key : (ensureOAuthClient (recording oc) client (s, [])).1 =
        (ensureOAuthClient oc client s).1 ∧
      (ensureOAuthClient (recording oc) client (s, [])).2.1 =
        (ensureOAuthClient oc client s).2 := by
    rcases hc : oc.Create client s with ⟨res, s1⟩
    cases res with
    | ok w => simp [ensureOAuthClient, recording, hc]
    | error e =>
      by_cases hae : IsAlreadyExists e = true
      · simpa [ensureOAuthClient, recording, hc, hae, RetryOnConflict, OnError] using
          recording_loop oc client DefaultRetry.Steps none s1 [Call.create client (Except.error e)]
      · simp [ensureOAuthClient, recording, hc, hae]
  rcases hrun : ensureOAuthClient (recording oc) client (s, []) with ⟨err, s1, log⟩
  rw [hrun] at key hcalls
  simp only at key hcalls
  rw [← key.1, ← key.2, ← hcalls]

/-- The three shapes of a run of `ensureOAuthClient`, on the store itself: the error it
returns and the calls it makes. -/
theorem run_shape {σ : Type} (oc : OAuthClientInterface σ) (client : OAuthClient) (s : σ) :
    (∃ w, (ensureOAuthClient oc client s).1 = none ∧
      callsOf oc client s = [Call.create client (Except.ok w)]) ∨
    (∃ e, IsAlreadyExists e = false ∧ (ensureOAuthClient oc client s).1 = some e ∧
      callsOf oc client s = [Call.create client (Except.error e)]) ∨
    (∃ e calls, IsAlreadyExists e = true ∧
      LoopTrace client DefaultRetry.Steps none (ensureOAuthClient oc client s).1 calls ∧
      callsOf oc client s = Call.create client (Except.error e) :: calls) := by
  have hrec := recording_ensure oc client s
  have h := ensureOAuthClient_trace oc client s
  rw [hrec] at h
  exact h

/-! # The claims -/

/-- C1, as stated, fails: when the stored secret and the desired secret are both `abc`,
the merged secret equals the desired one although the desired secret is neither longer
than the stored one nor empty. -/
theorem C1_iff_fails_on_equal_secrets :
    ¬ ((existingCopy (sampleClient cli 1 abc) (sampleClient cli 0 abc)).Secret =
          (sampleClient cli 0 abc).Secret ↔
        ((sampleClient cli 1 abc).Secret.length < (sampleClient cli 0 abc).Secret.length ∨
          (sampleClient cli 0 abc).Secret = [])) := by
  decide

/-- C1, amended: if the desired secret is longer than the stored one or is empty, the
merged secret is the desired secret; in every other case the merged secret is the stored
secret; hence the merged secret equals the desired one if and only if the desired secret
is longer, or empty, or already equal to the stored secret. -/
theorem C1_secret_merge_rule (s d : OAuthClient) :
    ((s.Secret.length < d.Secret.length ∨ d.Secret = []) →
      (existingCopy s d).Secret = d.Secret) ∧
    (¬ (s.Secret.length < d.Secret.length ∨ d.Secret = []) →
      (existingCopy s d).Secret = s.Secret) ∧
    ((existingCopy s d).Secret = d.Secret ↔
      (s.Secret.length < d.Secret.length ∨ d.Secret = [] ∨ s.Secret = d.Secret)) := by
  have hS := existingCopy_Secret s d
  by_cases h0 : d.Secret.length = 0
  · have hd : d.Secret = [] := List.length_eq_zero.mp h0
    rw [if_pos h0] at hS
    refine ⟨fun _ => hS, fun hn => absurd (Or.inr hd) hn, fun _ => Or.inr (Or.inl hd), fun _ => hS⟩
  · have hd : d.Secret ≠ [] := fun h => h0 (by rw [h]; rfl)
    rw [if_neg h0] at hS
    by_cases h1 : s.Secret.length < d.Secret.length
    · rw [if_pos h1] at hS
      exact ⟨fun _ => hS, fun hn => absurd (Or.inl h1) hn, fun _ => Or.inl h1, fun _ => hS⟩
    · rw [if_neg h1] at hS
      refine ⟨?_, fun _ => hS, ?_, ?_⟩
      · rintro (h | h)
        · exact absurd h h1
        · exact absurd h hd
      · intro h
        exact Or.inr (Or.inr (by rw [← hS, h]))
      · rintro (h | h | h)
        · exact absurd h h1
        · exact absurd h hd
        · rw [hS, h]

/-- C4: when the desired secret is not empty, the secret of the merged candidate is at
least as long as the stored secret; and in every run of `ensureOAuthClient`, on any
store, every update carries a secret at least as long as the secret of the record that
was read just before it. -/
theorem C4_secret_never_shortened {σ : Type} (oc : OAuthClientInterface σ) (st : σ)
    (s d : OAuthClient) (hd : d.Secret ≠ []) :
    s.Secret.length ≤ (existingCopy s d).Secret.length ∧
    ∀ (i : Nat) (c : OAuthClient) (res : Except GoError OAuthClient),
      (callsOf oc d st)[i]? = some (Call.update c res) →
      ∃ j r, i = j + 1 ∧ (callsOf oc d st)[j]? = some (Call.get d.Name (Except.ok r)) ∧
        r.Secret.length ≤ c.Secret.length := by
  have hlen : ∀ r : OAuthClient, r.Secret.length ≤ (existingCopy r d).Secret.length := by
    intro r
    have hS := existingCopy_Secret r d
    have h0 : ¬ d.Secret.length = 0 := fun h => hd (List.length_eq_zero.mp h)
    rw [if_neg h0] at hS
    by_cases h1 : r.Secret.length < d.Secret.length
    · rw [if_pos h1] at hS
      rw [hS]; omega
    · rw [if_neg h1] at hS
      rw [hS]
  refine ⟨hlen s, ?_⟩
  intro i c res hi
  rcases run_shape oc d st with ⟨w, -, hcalls⟩ | ⟨e, -, -, hcalls⟩ | ⟨e, calls, -, ht, hcalls⟩
  · rw [hcalls] at hi
    rcases i with _ | i <;> simp at hi
  · rw [hcalls] at hi
    rcases i with _ | i <;> simp at hi
  · rw [hcalls] at hi ⊢
    rcases i with _ | i
    · simp at hi
    · obtain ⟨j, r, hj, hg, hc⟩ := ht.updatesFollowReads i c res (by simpa using hi)
      exact ⟨j + 1, r, by omega, by simpa using hg, by rw [hc]; exact hlen r⟩

/-- C4 at a concrete input: the store holds `cli` with the secret `abc`, the desired
secret is `abcdXYZ12`. -/
theorem C4_secret_never_shortened_witness :
    (sampleClient cli 0 abcdXYZ12).Secret ≠ [] ∧
    (sampleClient cli 1 abc).Secret.length ≤
      (existingCopy (sampleClient cli 1 abc) (sampleClient cli 0 abcdXYZ12)).Secret.length :=
  ⟨by decide,
    (C4_secret_never_shortened memStore storeWithCli (sampleClient cli 1 abc)
      (sampleClient cli 0 abcdXYZ12) (by decide)).1⟩

/-- C10: the merged candidate has the name and the version token of the stored record
and differs from it in no field other than the secret, `RespondWithChallenges`,
`RedirectURIs`, `GrantMethod` and `ScopeRestrictions`; and in every run of
`ensureOAuthClient`, on any store, every update comes right after a successful read of
the desired name and is sent under the name and with the version token of the record
that this read returned. -/
theorem C10_merge_frame {σ : Type} (oc : OAuthClientInterface σ) (st : σ) (s d : OAuthClient) :
    (existingCopy s d).Name = s.Name ∧
    (existingCopy s d).ResourceVersion = s.ResourceVersion ∧
    existingCopy s d =
      { s with
        Secret := (existingCopy s d).Secret
        RespondWithChallenges := (existingCopy s d).RespondWithChallenges
        RedirectURIs := (existingCopy s d).RedirectURIs
        GrantMethod := (existingCopy s d).GrantMethod
        ScopeRestrictions := (existingCopy s d).ScopeRestrictions } ∧
    ∀ (i : Nat) (c : OAuthClient) (res : Except GoError OAuthClient),
      (callsOf oc d st)[i]? = some (Call.update c res) →
      ∃ j r, i = j + 1 ∧ (callsOf oc d st)[j]? = some (Call.get d.Name (Except.ok r)) ∧
        c = existingCopy r d ∧ c.Name = r.Name ∧ c.ResourceVersion = r.ResourceVersion := by
  refine ⟨existingCopy_Name s d, existingCopy_ResourceVersion s d, ?_, ?_⟩
  · cases hm : existingCopy s d with
    | mk n v u sec add rwc uris gm sr a1 a2 =>
      have hf := existingCopy_frame s d
      rw [hm] at hf
      cases s
      simp_all
  · intro i c res hi
    rcases run_shape oc d st with ⟨w, -, hcalls⟩ | ⟨e, -, -, hcalls⟩ | ⟨e, calls, -, ht, hcalls⟩
    · rw [hcalls] at hi
      rcases i with _ | i <;> simp at hi
    · rw [hcalls] at hi
      rcases i with _ | i <;> simp at hi
    · rw [hcalls] at hi ⊢
      rcases i with _ | i
      · simp at hi
      · obtain ⟨j, r, hj, hg, hc⟩ := ht.updatesFollowReads i c res (by simpa using hi)
        exact ⟨j + 1, r, by omega, by simpa using hg, hc,
          by rw [hc]; exact existingCopy_Name r d,
          by rw [hc]; exact existingCopy_ResourceVersion r d⟩

/-- C7: when the create succeeds, `ensureOAuthClient` returns success, and when it fails
with an error that is not already-exists, `ensureOAuthClient` returns exactly that
error; in both cases the create is the only call made on the store (no get, no update)
and the store is left as the create left it. -/
theorem C7_create_short_circuit {σ : Type} (oc : OAuthClientInterface σ) (d : OAuthClient)
    (s s1 : σ) (res : Except GoError OAuthClient)
    (hcreate : oc.Create d s = (res, s1))
    (hres : ∀ e, res = Except.error e → IsAlreadyExists e = false) :
    ensureOAuthClient oc d s =
      ((match res with
        | Except.ok _ => none
        | Except.error e => some e), s1) ∧
    callsOf oc d s = [Call.create d res] := by
  cases res with
  | ok w =>
    exact ⟨by simp [ensureOAuthClient, hcreate],
      by simp [callsOf, ensureOAuthClient, recording, hcreate]⟩
  | error e =>
    have hae := hres e rfl
    exact ⟨by simp [ensureOAuthClient, hcreate, hae],
      by simp [callsOf, ensureOAuthClient, recording, hcreate, hae]⟩

/-- C7 at a concrete input: the record `cli` is created in an empty store. -/
theorem C7_create_short_circuit_witness :
    memStore.Create (sampleClient cli 0 abc) { rev := 0, items := [] } =
      (Except.ok (sampleClient cli 1 abc), { rev := 1, items := [sampleClient cli 1 abc] }) ∧
    ensureOAuthClient memStore (sampleClient cli 0 abc) { rev := 0, items := [] } =
      (none, { rev := 1, items := [sampleClient cli 1 abc] }) ∧
    callsOf memStore (sampleClient cli 0 abc) { rev := 0, items := [] } =
      [Call.create (sampleClient cli 0 abc) (Except.ok (sampleClient cli 1 abc))] :=
  ⟨by decide,
    C7_create_short_circuit memStore (sampleClient cli 0 abc) { rev := 0, items := [] }
      { rev := 1, items := [sampleClient cli 1 abc] } (Except.ok (sampleClient cli 1 abc))
      (by decide) (fun e h => by cases h)⟩

/-- C8, as stated, fails: on a store whose `Get` answers with a conflict error, the
failed read is retried as a conflict; the run makes five reads instead of one. -/
theorem C8_conflicting_read_is_retried :
    callsOf (fixedStore (Except.error errAlreadyExists) (Except.error errConflict)
        (Except.error errConflict)) (sampleClient cli 0 abc) () =
      [Call.create (sampleClient cli 0 abc) (Except.error errAlreadyExists),
        Call.get cli (Except.error errConflict), Call.get cli (Except.error errConflict),
        Call.get cli (Except.error errConflict), Call.get cli (Except.error errConflict),
        Call.get cli (Except.error errConflict)] := by
  decide

/-- C8, amended: in every run of `ensureOAuthClient`, on any store, a `Get` that fails
with an error that is not a version conflict is the last call of the run (no update and
no further get follows it) and its error is returned unchanged. -/
theorem C8_read_failure_terminal {σ : Type} (oc : OAuthClientInterface σ) (d : OAuthClient)
    (s : σ) (i : Nat) (name : GoString) (e : GoError)
    (hget : (callsOf oc d s)[i]? = some (Call.get name (Except.error e)))
    (hkind : IsConflict e = false) :
    i + 1 = (callsOf oc d s).length ∧ (ensureOAuthClient oc d s).1 = some e := by
  rcases run_shape oc d s with ⟨w, -, hcalls⟩ | ⟨e2, -, -, hcalls⟩ | ⟨e2, calls, -, ht, hcalls⟩
  · rw [hcalls] at hget
    rcases i with _ | i <;> simp at hget
  · rw [hcalls] at hget
    rcases i with _ | i <;> simp at hget
  · rw [hcalls] at hget ⊢
    rcases i with _ | i
    · simp at hget
    · obtain ⟨h1, h2⟩ := ht.failed_get_is_last i name e (by simpa using hget) hkind
      exact ⟨by simp; omega, h2⟩

/-- C8 (amended) at a concrete input: the record vanished between the refused create and
the read, so the read fails as not found. -/
theorem C8_read_failure_terminal_witness :
    (callsOf (fixedStore (Except.error errAlreadyExists) (Except.error errNotFound)
        (Except.error errConflict)) (sampleClient cli 0 abc) ())[1]? =
      some (Call.get cli (Except.error errNotFound)) ∧
    IsConflict errNotFound = false ∧
    1 + 1 = (callsOf (fixedStore (Except.error errAlreadyExists) (Except.error errNotFound)
        (Except.error errConflict)) (sampleClient cli 0 abc) ()).length ∧
    (ensureOAuthClient (fixedStore (Except.error errAlreadyExists) (Except.error errNotFound)
        (Except.error errConflict)) (sampleClient cli 0 abc) ()).1 = some errNotFound :=
  ⟨by decide, by decide,
    C8_read_failure_terminal (fixedStore (Except.error errAlreadyExists)
      (Except.error errNotFound) (Except.error errConflict)) (sampleClient cli 0 abc) () 1 cli
      errNotFound (by decide) (by decide)⟩

/-- C5: in every run of `ensureOAuthClient`, on any store, in which the updates are
rejected `es.length` times and then accepted: the rejections are version conflicts and
fewer than the retry budget, the run returns success, every update of the run comes right after a read of
its own attempt and sends the merge of the record just read, and the run ends with a
read followed by the accepted update of the merge of that last read with the desired
record. -/
theorem C5_conflict_convergence {σ : Type} (oc : OAuthClientInterface σ) (d : OAuthClient)
    (s : σ) (es : List GoError) (w : OAuthClient)
    (hupd : updateResults (callsOf oc d s) = es.map Except.error ++ [Except.ok w]) :
    (ensureOAuthClient oc d s).1 = none ∧
    es.length < DefaultRetry.Steps ∧
    (∀ e ∈ es, IsConflict e = true) ∧
    es.length + 1 ≤ (getResults (callsOf oc d s)).length ∧
    (∀ (i : Nat) (c : OAuthClient) (res : Except GoError OAuthClient),
      (callsOf oc d s)[i]? = some (Call.update c res) →
      ∃ j r, i = j + 1 ∧ (callsOf oc d s)[j]? = some (Call.get d.Name (Except.ok r)) ∧
        c = existingCopy r d) ∧
    ∃ pre r, callsOf oc d s =
      pre ++ [Call.get d.Name (Except.ok r), Call.update (existingCopy r d) (Except.ok w)] := by
  rcases run_shape oc d s with ⟨w2, -, hcalls⟩ | ⟨e2, -, -, hcalls⟩ | ⟨e2, calls, -, ht, hcalls⟩
  · rw [hcalls] at hupd
    simp [updateResults] at hupd
  · rw [hcalls] at hupd
    simp [updateResults] at hupd
  · rw [hcalls] at hupd ⊢
    have hupd2 : updateResults calls = es.map Except.error ++ [Except.ok w] := by
      simpa [updateResults] using hupd
    obtain ⟨h1, h2, hcs, pre, r, h3⟩ := ht.accepted_after_conflicts es w hupd2
    have hle := ht.updates_le_gets
    refine ⟨h1, h2, hcs, ?_, ?_, Call.create d (Except.error e2) :: pre, r, by simp [h3]⟩
    · rw [hupd2] at hle
      simpa [getResults] using hle
    · intro i c res hi
      rcases i with _ | i
      · simp at hi
      · obtain ⟨j, r2, hj, hg, hc⟩ := ht.updatesFollowReads i c res (by simpa using hi)
        exact ⟨j + 1, r2, by omega, by simpa using hg, hc⟩

/-- C5 at a concrete input: another writer rewrites `cli` after each of the first two
reads, so two updates are rejected and the third is accepted. -/
theorem C5_conflict_convergence_witness :
    updateResults (callsOf contendedStore (sampleClient cli 0 abcdXYZ12) (storeWithCli, 2)) =
      [errConflict, errConflict].map Except.error ++
        [Except.ok (sampleClient cli 4 abcdXYZ12)] ∧
    (ensureOAuthClient contendedStore (sampleClient cli 0 abcdXYZ12) (storeWithCli, 2)).1 =
      none ∧
    [errConflict, errConflict].length < DefaultRetry.Steps :=
  ⟨by decide,
    (C5_conflict_convergence contendedStore (sampleClient cli 0 abcdXYZ12) (storeWithCli, 2)
      [errConflict, errConflict] (sampleClient cli 4 abcdXYZ12) (by decide)).1,
    (C5_conflict_convergence contendedStore (sampleClient cli 0 abcdXYZ12) (storeWithCli, 2)
      [errConflict, errConflict] (sampleClient cli 4 abcdXYZ12) (by decide)).2.1⟩

/-- C6, as stated, fails: on a store shared with a second reconciler that writes the
same merge after the first read, the only update of the run is rejected with a version
conflict, so every update attempt is rejected with a version conflict; the next read
finds the record already merged and the run returns success, not a conflict error. -/
theorem C6_rejected_update_then_success :
    callsOf (peerStore (sampleClient cli 0 abcdXYZ12)) (sampleClient cli 0 abcdXYZ12)
        (storeWithCli, 1) =
      [Call.create (sampleClient cli 0 abcdXYZ12) (Except.error errAlreadyExists),
        Call.get cli (Except.ok (sampleClient cli 1 abc)),
        Call.update (sampleClient cli 1 abcdXYZ12) (Except.error errConflict),
        Call.get cli (Except.ok (sampleClient cli 2 abcdXYZ12))] ∧
    (∀ res ∈ updateResults (callsOf (peerStore (sampleClient cli 0 abcdXYZ12))
        (sampleClient cli 0 abcdXYZ12) (storeWithCli, 1)), isConflictAnswer res = true) ∧
    (ensureOAuthClient (peerStore (sampleClient cli 0 abcdXYZ12))
        (sampleClient cli 0 abcdXYZ12) (storeWithCli, 1)).1 = none := by
  decide

/-- C6, amended: in every run of `ensureOAuthClient`, on any store, that reaches the
retry loop and in which every attempt ends in a version conflict (every read answers
with a record or a version conflict, every record read is followed by an update, and
every update is rejected with a version conflict): the run stops after exactly as many
reads as the retry budget and at most as many updates, it returns the conflict error
that its last call got, and the store accepted no write of the run. -/
theorem C6_budget_exhaustion {σ : Type} (oc : OAuthClientInterface σ) (d : OAuthClient)
    (s : σ)
    (hloop : getResults (callsOf oc d s) ≠ [])
    (hget : ∀ res ∈ getResults (callsOf oc d s), isRecordOrConflict res = true)
    (hfollow : ((getResults (callsOf oc d s)).filter isRecord).length =
      (updateResults (callsOf oc d s)).length)
    (hupd : ∀ res ∈ updateResults (callsOf oc d s), isConflictAnswer res = true) :
    (∃ e, (ensureOAuthClient oc d s).1 = some e ∧ IsConflict e = true ∧
      (callsOf oc d s).getLast?.map Call.answer = some (Except.error e)) ∧
    (getResults (callsOf oc d s)).length = DefaultRetry.Steps ∧
    (updateResults (callsOf oc d s)).length ≤ DefaultRetry.Steps ∧
    (callsOf oc d s).length ≤ 1 + 2 * DefaultRetry.Steps ∧
    acceptedWrites (callsOf oc d s) = [] := by
  rcases run_shape oc d s with ⟨w2, -, hcalls⟩ | ⟨e2, -, -, hcalls⟩ | ⟨e2, calls, -, ht, hcalls⟩
  · rw [hcalls] at hloop
    simp [getResults] at hloop
  · rw [hcalls] at hloop
    simp [getResults] at hloop
  · rw [hcalls] at hget hfollow hupd ⊢
    have hu : updateResults (Call.create d (Except.error e2) :: calls) = updateResults calls := by
      simp [updateResults]
    have hg : getResults (Call.create d (Except.error e2) :: calls) = getResults calls := by
      simp [getResults]
    rw [hu] at hupd
    rw [hg] at hget
    rw [hu, hg] at hfollow
    obtain ⟨h1, h2, -, h4⟩ := ht.conflicts_exhaust_budget hget hfollow hupd
    obtain ⟨e, hr, hc, hlast⟩ := h4 (by decide)
    have hle : (updateResults calls).length ≤ DefaultRetry.Steps := by
      rw [← hfollow, ← h1]
      exact List.length_filter_le _ _
    have hlen := ht.length_eq
    rw [hu, hg]
    refine ⟨⟨e, hr, hc, ?_⟩, h1, hle, ?_, by simp [acceptedWrites, h2]⟩
    · rw [List.getLast?_cons]
      cases hl : calls.getLast? with
      | none => simp [hl] at hlast
      | some c => simpa [hl] using hlast
    · simp only [List.length_cons]
      omega

/-- C6 (amended) at a concrete input: another writer rewrites `cli` after each of the
first seven reads, so that all five updates of the run are rejected. -/
theorem C6_budget_exhaustion_witness :
    getResults (callsOf contendedStore (sampleClient cli 0 abcdXYZ12) (storeWithCli, 7)) ≠
      [] ∧
    (ensureOAuthClient contendedStore (sampleClient cli 0 abcdXYZ12) (storeWithCli, 7)).1 =
      some errConflict ∧
    (getResults (callsOf contendedStore (sampleClient cli 0 abcdXYZ12)
      (storeWithCli, 7))).length = DefaultRetry.Steps ∧
    acceptedWrites (callsOf contendedStore (sampleClient cli 0 abcdXYZ12) (storeWithCli, 7)) =
      [] :=
  ⟨by decide, by decide,
    (C6_budget_exhaustion contendedStore (sampleClient cli 0 abcdXYZ12) (storeWithCli, 7)
      (by decide) (by decide) (by decide) (by decide)).2.1,
    (C6_budget_exhaustion contendedStore (sampleClient cli 0 abcdXYZ12) (storeWithCli, 7)
      (by decide) (by decide) (by decide) (by decide)).2.2.2.2⟩

/-! ## Stores without interference -/

theorem fixed_of_sameReconciledFields_self (r d : OAuthClient) (h : sameReconciledFields r d) :
    existingCopy r d = r := by
  obtain ⟨h1, h2, h3, h4, h5⟩ := h
  rw [existingCopy_eq_self_iff]
  refine ⟨?_, h2, h3, h4, h5⟩
  rw [existingCopy_Secret, h1]
  by_cases h0 : d.Secret.length = 0 <;> simp [h0]

theorem fixed_of_sameReconciledFields_copy (r0 r d : OAuthClient)
    (h : sameReconciledFields r (existingCopy r0 d)) : existingCopy r d = r := by
  obtain ⟨h1, h2, h3, h4, h5⟩ := h
  have hidem := existingCopy_idem r0 d
  have hfix := (existingCopy_eq_self_iff (existingCopy r0 d) d).mp hidem
  rw [existingCopy_eq_self_iff]
  refine ⟨?_, h2.trans hfix.2.1, h3.trans hfix.2.2.1, h4.trans hfix.2.2.2.1,
    h5.trans hfix.2.2.2.2⟩
  have hS := hfix.1
  rw [existingCopy_Secret] at hS ⊢
  rw [h1]
  exact hS

theorem memStore_quiet : QuietStore memStore MemStore.lookup where
  create_ok := by
    intro c s w s1 h
    cases hl : s.lookup c.Name with
    | some cur => simp [memStore, MemStore.Create, hl] at h
    | none =>
      simp only [memStore, MemStore.Create, hl] at h
      refine ⟨{ c with ResourceVersion := s.rev + 1 }, ?_, by simp [sameReconciledFields]⟩
      rw [← (Prod.mk.inj h).2]
      unfold MemStore.lookup at hl ⊢
      simp [List.find?_append, hl]
  create_taken := by
    intro c s r hl
    exact ⟨{ Reason := StatusReason.AlreadyExists, Message := c.Name }, by simp [IsAlreadyExists],
      by simp [memStore, MemStore.Create, hl]⟩
  get_ok := by
    intro n s r s1 h
    cases hl : s.lookup n with
    | none => simp [memStore, MemStore.Get, hl] at h
    | some cur =>
      simp only [memStore, MemStore.Get, hl] at h
      have h1 := (Prod.mk.inj h).1
      have h2 := (Prod.mk.inj h).2
      injection h1 with h1
      subst h1 h2
      exact ⟨MemStore.lookup_name hl, hl⟩
  get_found := by
    intro n s r hl
    simp [memStore, MemStore.Get, hl]
  update_ok := by
    intro c s w s1 h
    cases hl : s.lookup c.Name with
    | none => simp [memStore, MemStore.Update, hl] at h
    | some cur =>
      by_cases hv : cur.ResourceVersion = c.ResourceVersion
      · simp only [memStore, MemStore.Update, hl, hv, if_true] at h
        refine ⟨{ c with ResourceVersion := s.rev + 1 }, ?_, by simp [sameReconciledFields]⟩
        rw [← (Prod.mk.inj h).2]
        unfold MemStore.lookup at hl
        simp only [MemStore.lookup]
        exact find_after_replace c.Name { c with ResourceVersion := s.rev + 1 } rfl s.items cur hl
      · simp [memStore, MemStore.Update, hl, hv] at h

/-- On a store without interference, a retry loop that returns success leaves under the
desired name a record that the merge would not change. -/
theorem quiet_loop_success {σ : Type} (oc : OAuthClientInterface σ)
    (view : σ → GoString → Option OAuthClient) (hq : QuietStore oc view) (d : OAuthClient) :
    ∀ (n : Nat) (lastErr : Option GoError) (s : σ),
      (onErrorLoop IsConflict (ensureOAuthClient.func1 oc d) n lastErr s).1 = none →
      (n = 0 ∧ lastErr = none) ∨
      ∃ r, view (onErrorLoop IsConflict (ensureOAuthClient.func1 oc d) n lastErr s).2 d.Name =
        some r ∧ existingCopy r d = r := by
  intro n
  induction n with
  | zero =>
    intro lastErr s h
    left
    exact ⟨rfl, by simpa [onErrorLoop] using h⟩
  | succ n ih =>
    intro lastErr s h
    right
    have retry : ∀ (e : GoError) (s1 : σ),
        ensureOAuthClient.func1 oc d s = (some e, s1) →
        ∃ r, view (onErrorLoop IsConflict (ensureOAuthClient.func1 oc d) (n + 1) lastErr s).2
          d.Name = some r ∧ existingCopy r d = r := by
      intro e s1 hf
      by_cases hc : IsConflict e = true
      · have hstep : onErrorLoop IsConflict (ensureOAuthClient.func1 oc d) (n + 1) lastErr s =
            onErrorLoop IsConflict (ensureOAuthClient.func1 oc d) n (some e) s1 := by
          simp [onErrorLoop, hf, hc]
        rw [hstep] at h ⊢
        rcases ih (some e) s1 h with ⟨-, h2⟩ | h2
        · cases h2
        · exact h2
      · simp [onErrorLoop, hf, hc] at h
    rcases hg : oc.Get d.Name s with ⟨res, s1⟩
    cases res with
    | error e =>
      exact retry e s1 (by simp [ensureOAuthClient.func1, hg])
    | ok r =>
      obtain ⟨hname, hview⟩ := hq.get_ok d.Name s r s1 hg
      by_cases heq : existingCopy r d = r
      · have hf : ensureOAuthClient.func1 oc d s = (none, s1) := by
          simp [ensureOAuthClient.func1, hg, semanticDeepEqual, heq]
        exact ⟨r, by simpa [onErrorLoop, hf] using hview, heq⟩
      · have hne : ¬ r = existingCopy r d := fun h => heq h.symm
        rcases hu : oc.Update (existingCopy r d) s1 with ⟨res2, s2⟩
        cases res2 with
        | error e =>
          exact retry e s2 (by simp [ensureOAuthClient.func1, hg, semanticDeepEqual, hne, hu])
        | ok w =>
          have hf : ensureOAuthClient.func1 oc d s = (none, s2) := by
            simp [ensureOAuthClient.func1, hg, semanticDeepEqual, hne, hu]
          obtain ⟨r2, hv2, hsame⟩ := hq.update_ok (existingCopy r d) s1 w s2 hu
          rw [existingCopy_Name, hname] at hv2
          exact ⟨r2, by simpa [onErrorLoop, hf] using hv2,
            fixed_of_sameReconciledFields_copy r r2 d hsame⟩

/-- On a store without interference, a successful run of `ensureOAuthClient` leaves under
the desired name a record that the merge would not change. -/
theorem quiet_ensure_success {σ : Type} (oc : OAuthClientInterface σ)
    (view : σ → GoString → Option OAuthClient) (hq : QuietStore oc view) (d : OAuthClient)
    (s : σ) (hok : (ensureOAuthClient oc d s).1 = none) :
    ∃ r, view (ensureOAuthClient oc d s).2 d.Name = some r ∧ existingCopy r d = r := by
  rcases hc : oc.Create d s with ⟨res, s1⟩
  cases res with
  | ok w =>
    obtain ⟨r, hv, hsame⟩ := hq.create_ok d s w s1 hc
    exact ⟨r, by simpa [ensureOAuthClient, hc] using hv,
      fixed_of_sameReconciledFields_self r d hsame⟩
  | error e =>
    by_cases hae : IsAlreadyExists e = true
    · have hrun : ensureOAuthClient oc d s =
          onErrorLoop IsConflict (ensureOAuthClient.func1 oc d) DefaultRetry.Steps none s1 := by
        simp [ensureOAuthClient, hc, hae, RetryOnConflict, OnError]
      rw [hrun] at hok ⊢
      rcases quiet_loop_success oc view hq d DefaultRetry.Steps none s1 hok with ⟨h0, -⟩ | h
      · exact absurd h0 (by decide)
      · exact h
    · simp [ensureOAuthClient, hc, hae] at hok

/-- C2: on every store that keeps the contract of the remote store without external
interference, from every state (name absent, or present with arbitrary field values),
when `ensureOAuthClient` returns success the record stored under the desired name has
the `RedirectURIs`, `GrantMethod`, `ScopeRestrictions` and `RespondWithChallenges` of the
desired record, whichever path the run took. -/
theorem C2_full_replace {σ : Type} (oc : OAuthClientInterface σ)
    (view : σ → GoString → Option OAuthClient) (hq : QuietStore oc view) (d : OAuthClient)
    (s : σ) (hok : (ensureOAuthClient oc d s).1 = none) :
    ∃ r, view (ensureOAuthClient oc d s).2 d.Name = some r ∧
      r.RedirectURIs = d.RedirectURIs ∧ r.GrantMethod = d.GrantMethod ∧
      r.ScopeRestrictions = d.ScopeRestrictions ∧
      r.RespondWithChallenges = d.RespondWithChallenges := by
  obtain ⟨r, hv, hfix⟩ := quiet_ensure_success oc view hq d s hok
  obtain ⟨-, h2, h3, h4, h5⟩ := (existingCopy_eq_self_iff r d).mp hfix
  exact ⟨r, hv, h3, h4, h5, h2⟩

/-- C2 at a concrete input: the store holds `cli` with other field values, and the run
takes the update path. -/
theorem C2_full_replace_witness :
    QuietStore memStore MemStore.lookup ∧
    (ensureOAuthClient memStore desiredCli storeWithCli).1 = none ∧
    ∃ r, (ensureOAuthClient memStore desiredCli storeWithCli).2.lookup desiredCli.Name = some r ∧
      r.RedirectURIs = desiredCli.RedirectURIs ∧ r.GrantMethod = desiredCli.GrantMethod ∧
      r.ScopeRestrictions = desiredCli.ScopeRestrictions ∧
      r.RespondWithChallenges = desiredCli.RespondWithChallenges :=
  ⟨memStore_quiet, by decide,
    C2_full_replace memStore MemStore.lookup memStore_quiet desiredCli storeWithCli (by decide)⟩

/-- C3: on every store that keeps the contract of the remote store without external
interference, when a first run of `ensureOAuthClient` succeeds, a second run with the
same desired record makes two calls only, a create that is refused as already-exists and
a read of a record that its merge with the desired record leaves unchanged; it sends no
update, no write of it is accepted, it returns success and the store is left in the
state the first run left.  The merge itself is idempotent, and merging a record with
itself changes nothing. -/
theorem C3_idempotence {σ : Type} (oc : OAuthClientInterface σ)
    (view : σ → GoString → Option OAuthClient) (hq : QuietStore oc view) (d : OAuthClient)
    (s : σ) (hok : (ensureOAuthClient oc d s).1 = none) :
    ensureOAuthClient oc d (ensureOAuthClient oc d s).2 = (none, (ensureOAuthClient oc d s).2) ∧
    (∃ e r, IsAlreadyExists e = true ∧ existingCopy r d = r ∧
      callsOf oc d (ensureOAuthClient oc d s).2 =
        [Call.create d (Except.error e), Call.get d.Name (Except.ok r)]) ∧
    updateResults (callsOf oc d (ensureOAuthClient oc d s).2) = [] ∧
    acceptedWrites (callsOf oc d (ensureOAuthClient oc d s).2) = [] ∧
    (∀ x : OAuthClient, existingCopy (existingCopy x d) d = existingCopy x d) ∧
    existingCopy d d = d := by
  obtain ⟨r, hv, hfix⟩ := quiet_ensure_success oc view hq d s hok
  obtain ⟨e, hae, hc⟩ := hq.create_taken d (ensureOAuthClient oc d s).2 r hv
  have hg := hq.get_found d.Name (ensureOAuthClient oc d s).2 r hv
  generalize (ensureOAuthClient oc d s).2 = s1 at hv hc hg
  have hrun : ensureOAuthClient oc d s1 = (none, s1) := by
    simp [ensureOAuthClient, hc, hae, RetryOnConflict, OnError, DefaultRetry, onErrorLoop,
      ensureOAuthClient.func1, hg, semanticDeepEqual, hfix]
  have hcalls : callsOf oc d s1 =
      [Call.create d (Except.error e), Call.get d.Name (Except.ok r)] := by
    simp [callsOf, ensureOAuthClient, recording, hc, hae, RetryOnConflict, OnError,
      DefaultRetry, onErrorLoop, ensureOAuthClient.func1, hg, semanticDeepEqual, hfix]
  refine ⟨hrun, ⟨e, r, hae, hfix, hcalls⟩, ?_, ?_, fun x => existingCopy_idem x d,
    existingCopy_self d⟩
  · rw [hcalls]; simp [updateResults]
  · rw [hcalls]; simp [acceptedWrites]

/-- C3 at a concrete input: the first run updates the record `cli`, the second run
changes nothing. -/
theorem C3_idempotence_witness :
    QuietStore memStore MemStore.lookup ∧
    (ensureOAuthClient memStore desiredCli storeWithCli).1 = none ∧
    ensureOAuthClient memStore desiredCli (ensureOAuthClient memStore desiredCli storeWithCli).2 =
      (none, (ensureOAuthClient memStore desiredCli storeWithCli).2) :=
  ⟨memStore_quiet, by decide,
    (C3_idempotence memStore MemStore.lookup memStore_quiet desiredCli storeWithCli
      (by decide)).1⟩

/-- C9, as stated, fails: for `2^62` bits the 2^59 bytes needed are more than `make`
accepts, so `randomBitsString` panics whatever the allocator and the random source are,
and returns no string. -/
theorem C9_huge_bits_panic :
    (0 : Int) < 2 ^ 62 ∧ randomBitsString (2 ^ 62) largestAllocator sampleReader = none ∧
    ¬ ∃ (a : Allocator) (r : RandReader) (s : GoString),
      randomBitsString (2 ^ 62) a r = some s := by
  have hall : ∀ (a : Allocator) (r : RandReader), randomBitsString (2 ^ 62) a r = none := by
    intro a r
    have hlim : (a.limit : Int) ≤ 2 ^ 48 := by
      have := a.limit_le
      unfold maxAlloc at this
      exact_mod_cast this
    rcases randomBits_pos (2 ^ 62) a r (by norm_num) with ⟨-, h⟩ | ⟨-, h, -⟩
    · simp only [randomBitsString, h, Option.map_none']
    · norm_num at h hlim
      omega
  refine ⟨by norm_num, hall _ _, ?_⟩
  rintro ⟨a, r, s, h⟩
  rw [hall a r] at h
  cases h

/-- C9, amended: for every positive number of bits, `randomBitsString` aborts exactly
when the random source fails or `ceil(bits/8)` bytes are more than the allocator
provides (never more than `maxAlloc`); otherwise it returns the unpadded URL-safe base64
encoding of exactly `ceil(bits/8)` random bytes: the length of the string is a function
of that number of bytes alone, every character is in `[A-Za-z0-9_-]` and none is `+`,
`/` or `=`.  `random256BitsString` aborts exactly when the source fails or 32 bytes
cannot be allocated, and otherwise encodes 32 bytes as exactly 43 characters. -/
theorem C9_entropy_string_shape (bits : Int) (a : Allocator) (r : RandReader)
    (hbits : 0 < bits) :
    (randomBitsString bits a r = none ↔ (r.fails = true ∨ 8 * (a.limit : Int) < bits)) ∧
    (∀ s, randomBitsString bits a r = some s →
      ∃ b, randomBits bits a r = some b ∧
        bits ≤ 8 * (b.length : Int) ∧ 8 * (b.length : Int) < bits + 8 ∧
        s = RawURLEncoding.EncodeToString b ∧
        s.length = RawURLEncoding.EncodedLen b.length ∧
        ∀ c ∈ s, isURLSafeChar c = true ∧ Char.ofNat c.val ≠ '+' ∧ Char.ofNat c.val ≠ '/' ∧
          Char.ofNat c.val ≠ '=') ∧
    (random256BitsString a r = none ↔ (r.fails = true ∨ a.limit < 32)) ∧
    (∀ s, random256BitsString a r = some s →
      ∃ b, randomBits 256 a r = some b ∧ b.length = 32 ∧
        s = RawURLEncoding.EncodeToString b ∧ s.length = 43) := by
  have shape : ∀ (k : Int), 0 < k →
      (randomBitsString k a r = none ↔ (r.fails = true ∨ 8 * (a.limit : Int) < k)) ∧
      (∀ s, randomBitsString k a r = some s →
        ∃ b, randomBits k a r = some b ∧
          k ≤ 8 * (b.length : Int) ∧ 8 * (b.length : Int) < k + 8 ∧
          s = RawURLEncoding.EncodeToString b ∧
          s.length = RawURLEncoding.EncodedLen b.length ∧
          ∀ c ∈ s, isURLSafeChar c = true ∧ Char.ofNat c.val ≠ '+' ∧
            Char.ofNat c.val ≠ '/' ∧ Char.ofNat c.val ≠ '=') := by
    intro k hk
    rcases randomBits_pos k a r hk with ⟨hwhy, hnone⟩ | ⟨hf, hfit, n, h1, h2, hsome⟩
    · refine ⟨⟨fun _ => hwhy, fun _ => by simp [randomBitsString, hnone]⟩, ?_⟩
      intro s hs
      simp [randomBitsString, hnone] at hs
    · constructor
      · constructor
        · intro h
          simp [randomBitsString, hsome] at h
        · rintro (h | h)
          · rw [hf] at h; cases h
          · omega
      · intro s hs
        have hs2 : s = RawURLEncoding.EncodeToString ((List.range n).map r.supply) := by
          simpa [randomBitsString, hsome] using hs.symm
        refine ⟨(List.range n).map r.supply, hsome, by simpa using h1, by simpa using h2,
          hs2, ?_, ?_⟩
        · rw [hs2]; exact EncodeToString_length _ _ rfl
        · rw [hs2]; exact EncodeToString_safe _ _ rfl
  obtain ⟨g1, g2⟩ := shape bits hbits
  obtain ⟨k1, k2⟩ := shape 256 (by decide)
  refine ⟨g1, g2, ?_, ?_⟩
  · unfold random256BitsString
    rw [k1]
    constructor
    · rintro (h | h)
      · exact Or.inl h
      · exact Or.inr (by omega)
    · rintro (h | h)
      · exact Or.inl h
      · exact Or.inr (by omega)
  · intro s hs
    obtain ⟨b, hb, h1, h2, hs2, hlen, -⟩ := k2 s hs
    have h32 : b.length = 32 := by omega
    refine ⟨b, hb, h32, hs2, ?_⟩
    rw [hlen, h32]
    decide

/-- C9 (amended) at a concrete input: twelve bits from a source that does not fail give
two bytes, encoded as the three characters `-h8`. -/
theorem C9_entropy_string_shape_witness :
    (0 : Int) < 12 ∧ randomBitsString 12 largestAllocator sampleReader = some [45, 104, 56] ∧
    ∃ b, randomBits 12 largestAllocator sampleReader = some b ∧
      (12 : Int) ≤ 8 * (b.length : Int) ∧ 8 * (b.length : Int) < 12 + 8 ∧
      ([45, 104, 56] : GoString) = RawURLEncoding.EncodeToString b ∧
      ([45, 104, 56] : GoString).length = RawURLEncoding.EncodedLen b.length ∧
      ∀ c ∈ ([45, 104, 56] : GoString),
        isURLSafeChar c = true ∧ Char.ofNat c.val ≠ '+' ∧ Char.ofNat c.val ≠ '/' ∧
          Char.ofNat c.val ≠ '=' :=
  ⟨by decide, by decide,
    (C9_entropy_string_shape 12 largestAllocator sampleReader (by decide)).2.1 [45, 104, 56]
      (by decide)⟩

end Operator2
